import Mathlib

/-!
Verification development for the editor core of `brainwhocodes/text-editor`
(crates/editor). The Rust sources are shallowly embedded: a document is a
`List Char` plus a wrapping 64-bit version counter; ropey's character/line
arithmetic is modelled on the list; `Vec` stacks are modelled as Lean lists
with the most recently pushed element at the head.
-/

set_option maxHeartbeats 1000000

namespace TextEditor

/-- 64-bit wrap-around used by `u64::wrapping_add(1)` in `Document`. -/
def wrap64 (n : Nat) : Nat := n % (2 ^ 64)

/-- Number of `\n` characters, as counted by `inserted.chars().filter(|c| *c == '\n').count()`. -/
def countNewlines (t : List Char) : Nat := (t.filter (fun c => c = '\n')).length

/-- `rope.remove(s..e)` on an in-range span, list form. -/
def listRemove (t : List Char) (s e : Nat) : List Char := t.take s ++ t.drop e

/-- `rope.insert(s, ins)` on an in-range index, list form. -/
def listInsert (t : List Char) (s : Nat) (ins : List Char) : List Char :=
  t.take s ++ ins ++ t.drop s

/-- Char index of the start of line `l` (ropey `line_to_char`): the position
right after the `l`-th newline, clamped to the document end. -/
def lineToChar : List Char → Nat → Nat
  | _, 0 => 0
  | [], _ + 1 => 0
  | c :: rest, l + 1 =>
      if c = '\n' then 1 + lineToChar rest l else 1 + lineToChar rest (l + 1)

/-- Line containing char index `c` (ropey `char_to_line`): the number of
newlines strictly before `c`. -/
def charToLine (t : List Char) (c : Nat) : Nat := countNewlines (t.take c)

/-- `Document` from `document.rs`: a rope (modelled as `List Char`) plus a
monotone wrapping `u64` version counter. -/
structure Document where
  text : List Char
  version : Nat
  deriving Repr, DecidableEq

namespace Document

def new (text : List Char) : Document := ⟨text, 0⟩

def len_chars (d : Document) : Nat := d.text.length

/-- `rope.len_lines()`: number of newlines plus one. -/
def len_lines (d : Document) : Nat := countNewlines d.text + 1

/-- `slice_to_string(start_char, end_char)`: clamp both ends to the document
length, empty when `start ≥ end`. -/
def slice_to_string (d : Document) (start_char end_char : Nat) : List Char :=
  let start := min start_char d.text.length
  let stop := min end_char d.text.length
  if start ≥ stop then [] else (d.text.drop start).take (stop - start)

def line_to_char (d : Document) (line_idx : Nat) : Nat := lineToChar d.text line_idx

def char_to_line (d : Document) (char_idx : Nat) : Nat := charToLine d.text char_idx

/-- `line_start_char(i)` clamps the line index to `len_lines`. -/
def line_start_char (d : Document) (line_idx : Nat) : Nat :=
  lineToChar d.text (min line_idx d.len_lines)

/-- `line_end_char(i)` is the start of line `i+1`, clamped. -/
def line_end_char (d : Document) (line_idx : Nat) : Nat :=
  lineToChar d.text (min (line_idx + 1) d.len_lines)

/-- `line_text(i)`: the line's slice without its trailing newline; empty for
out-of-range lines. -/
def line_text (d : Document) (line_idx : Nat) : List Char :=
  if line_idx ≥ d.len_lines then []
  else
    let s := d.slice_to_string (lineToChar d.text line_idx) (lineToChar d.text (line_idx + 1))
    if s.getLast? = some '\n' then s.dropLast else s

/-- `insert(char_idx, text)`: rope insert (defined for `char_idx ≤ len_chars`;
ropey panics beyond) and a version bump. -/
def insert (d : Document) (char_idx : Nat) (text : List Char) : Document :=
  { text := listInsert d.text char_idx text, version := wrap64 (d.version + 1) }

/-- `delete_range(a, b)`: early return without a version bump when `a ≥ b`,
otherwise rope removal (defined for `b ≤ len_chars`) and a version bump. -/
def delete_range (d : Document) (start_char end_char : Nat) : Document :=
  if start_char ≥ end_char then d
  else { text := listRemove d.text start_char end_char, version := wrap64 (d.version + 1) }

/-- `replace_range(a, b, ins)`: clamp both ends, remove the span when
non-empty, insert at the clamped start, always bump the version. -/
def replace_range (d : Document) (start_char end_char : Nat) (inserted : List Char) : Document :=
  let start := min start_char d.text.length
  let stop := min end_char d.text.length
  let t1 := if start < stop then listRemove d.text start stop else d.text
  let t2 := if inserted.isEmpty then t1 else listInsert t1 start inserted
  { text := t2, version := wrap64 (d.version + 1) }

end Document

/-- `Selection` from `selection.rs`. -/
structure Selection where
  anchor : Nat
  head : Nat
  deriving Repr, DecidableEq

namespace Selection

def is_caret (s : Selection) : Bool := s.anchor = s.head

/-- Ordered `(min, max)` pair. -/
def range (s : Selection) : Nat × Nat :=
  if s.anchor ≤ s.head then (s.anchor, s.head) else (s.head, s.anchor)

end Selection

/-- `SelectionSet`: one primary plus secondaries. -/
structure SelectionSet where
  primary : Selection
  secondary : List Selection
  deriving Repr, DecidableEq

instance : Inhabited SelectionSet := ⟨⟨⟨0, 0⟩, []⟩⟩

namespace SelectionSet

def is_single_caret (ss : SelectionSet) : Bool := ss.secondary.isEmpty && ss.primary.is_caret

def all_including_primary (ss : SelectionSet) : List Selection := ss.primary :: ss.secondary

def set_single_caret (_ss : SelectionSet) (char_idx : Nat) : SelectionSet :=
  ⟨⟨char_idx, char_idx⟩, []⟩

end SelectionSet

/-- `Edit` from `history.rs`. -/
structure Edit where
  start_char : Nat
  deleted : List Char
  inserted : List Char
  deriving Repr, DecidableEq

instance : Inhabited Edit := ⟨⟨0, [], []⟩⟩

inductive TransactionKind where
  | Insert
  | Delete
  | Replace
  | Other
  deriving Repr, DecidableEq

/-- `Transaction`: a kind (governing coalescing only) plus an ordered edit list. -/
structure Transaction where
  kind : TransactionKind
  edits : List Edit
  deriving Repr, DecidableEq

/-- `History`: undo and redo stacks; the head of each list is the top of the
corresponding `Vec` stack. -/
structure History where
  undo : List Transaction
  redo : List Transaction
  deriving Repr, DecidableEq

instance : Inhabited History := ⟨⟨[], []⟩⟩

namespace History

def can_undo (h : History) : Bool := !h.undo.isEmpty

def can_redo (h : History) : Bool := !h.redo.isEmpty

/-- `History::push`: plain push clearing redo, except for the nested chain of
coalescing guards which merges a one-edit adjacent insert into the previous
one-edit insert on top of the undo stack (still clearing redo). -/
def push (h : History) (tx : Transaction) (allow_coalesce_insert : Bool) : History :=
  let fallback : History := { undo := tx :: h.undo, redo := [] }
  if allow_coalesce_insert then
    if tx.kind = TransactionKind.Insert then
      match h.undo with
      | prev :: rest =>
          if prev.kind = TransactionKind.Insert then
            match prev.edits, tx.edits with
            | [pe], [ne] =>
                if pe.deleted.isEmpty ∧ ne.deleted.isEmpty ∧
                    pe.start_char + pe.inserted.length = ne.start_char then
                  { undo := { prev with
                      edits := [{ pe with inserted := pe.inserted ++ ne.inserted }] } :: rest,
                    redo := [] }
                else fallback
            | _, _ => fallback
          else fallback
      | [] => fallback
    else fallback
  else fallback

end History

/-- `EditImpact` from `buffer.rs`. -/
structure EditImpact where
  start_line : Nat
  end_line_inclusive : Nat
  deriving Repr, DecidableEq

/-- `ReplaceRange` from `buffer.rs`. -/
structure ReplaceRange where
  start_char : Nat
  end_char : Nat
  inserted : List Char
  deriving Repr, DecidableEq

/-- Stable insertion placing `e` after every strictly larger start (models one
step of `Vec::sort_by(|a, b| b.start_char.cmp(&a.start_char))`). -/
def insertDesc (e : Edit) : List Edit → List Edit
  | [] => [e]
  | x :: xs => if e.start_char < x.start_char then x :: insertDesc e xs else e :: x :: xs

/-- Stable descending sort by `start_char`, as performed on edit vectors. -/
def sortEditsDesc : List Edit → List Edit
  | [] => []
  | x :: xs => insertDesc x (sortEditsDesc xs)

/-- Minimum of a list, `usize::MAX` fold with a nonempty list (`0` on `[]`,
which the buffer never hits: the selection list always holds the primary). -/
def listMinD : List Nat → Nat
  | [] => 0
  | x :: xs => xs.foldl min x

/-- Maximum fold starting from `0`, as in `end_line`. -/
def listMax (l : List Nat) : Nat := l.foldl max 0

/-- `Buffer` from `buffer.rs` (document + selections + history + impact). -/
structure Buffer where
  doc : Document
  selections : SelectionSet
  history : History
  last_edit_impact : Option EditImpact
  deriving Repr, DecidableEq

namespace Buffer

def new (text : List Char) : Buffer :=
  { doc := Document.new text, selections := default, history := default,
    last_edit_impact := none }

/-- Application loop shared by the buffer operations: each edit (already
sorted descending) is `replace_range`d over the accumulating document. -/
def applyEditsForward (d : Document) (edits : List Edit) : Document :=
  edits.foldl (fun acc e =>
    acc.replace_range e.start_char (e.start_char + e.deleted.length) e.inserted) d

/-- Inverse application loop used by `undo`: delete what was inserted, put
back what was deleted. -/
def applyEditsInverse (d : Document) (edits : List Edit) : Document :=
  edits.foldl (fun acc e =>
    acc.replace_range e.start_char (e.start_char + e.inserted.length) e.deleted) d

/-- `Buffer::apply_text_to_selections`: record one edit per selection, early
return when all edits are empty, apply sorted descending, collapse every
selection to a caret after its own insertion, classify the kind, push (with
the single-caret single-char insert coalescing permission), report impact. -/
def apply_text_to_selections (b : Buffer) (inserted : List Char) : Buffer :=
  let selections := b.selections.all_including_primary
  let edits : List Edit := selections.map (fun s =>
    { start_char := s.range.1,
      deleted := b.doc.slice_to_string s.range.1 s.range.2,
      inserted := inserted })
  if edits.all (fun e => e.deleted.isEmpty && e.inserted.isEmpty) then b
  else
    let start_line := listMinD (selections.map (fun s => b.doc.char_to_line s.range.1))
    let end_line := listMax (selections.map (fun s => b.doc.char_to_line s.range.2))
    let sorted := sortEditsDesc edits
    let doc' := applyEditsForward b.doc sorted
    let collapsed : List Selection := selections.map (fun s =>
      ⟨s.range.1 + inserted.length, s.range.1 + inserted.length⟩)
    let newSet : SelectionSet :=
      match collapsed with
      | [] => default
      | p :: rest => ⟨p, rest⟩
    let kind :=
      if inserted.isEmpty then TransactionKind.Delete
      else if selections.all (fun s => s.is_caret) then TransactionKind.Insert
      else TransactionKind.Replace
    let allow := decide (kind = TransactionKind.Insert) && inserted.length == 1 &&
      newSet.is_single_caret
    let history' := b.history.push { kind := kind, edits := sorted } allow
    let inserted_newlines := countNewlines inserted
    { doc := doc', selections := newSet, history := history',
      last_edit_impact := some
        { start_line := start_line,
          end_line_inclusive := end_line + (inserted_newlines + 1) } }

/-- `Buffer::apply_replace_ranges`: caller-supplied ranges, wholesale new
selection set, direct kind, coalescing disabled. -/
def apply_replace_ranges (b : Buffer) (ranges : List ReplaceRange)
    (kind : TransactionKind) (new_selections : SelectionSet) : Buffer :=
  match ranges with
  | [] => b
  | _ :: _ =>
    let edits : List Edit := ranges.map (fun r =>
      { start_char := r.start_char,
        deleted := b.doc.slice_to_string r.start_char r.end_char,
        inserted := r.inserted })
    let start_line := listMinD (ranges.map (fun r => b.doc.char_to_line r.start_char))
    let end_line := listMax (ranges.map (fun r => b.doc.char_to_line r.end_char))
    let sorted := sortEditsDesc edits
    let doc' := applyEditsForward b.doc sorted
    { doc := doc', selections := new_selections,
      history := b.history.push { kind := kind, edits := sorted } false,
      last_edit_impact := some
        { start_line := start_line, end_line_inclusive := end_line + 1 } }

/-- `Buffer::undo`: pop, sort descending, replay inverses, move to redo. -/
def undo (b : Buffer) : Bool × Buffer :=
  match b.history.undo with
  | [] => (false, b)
  | tx :: rest =>
    let doc' := applyEditsInverse b.doc (sortEditsDesc tx.edits)
    let b' : Buffer :=
      { b with doc := doc', history := { undo := rest, redo := tx :: b.history.redo },
               last_edit_impact := none }
    (true, b')

/-- `Buffer::redo`: pop, sort descending, replay forward, move to undo. -/
def redo (b : Buffer) : Bool × Buffer :=
  match b.history.redo with
  | [] => (false, b)
  | tx :: rest =>
    let doc' := applyEditsForward b.doc (sortEditsDesc tx.edits)
    let b' : Buffer :=
      { b with doc := doc', history := { undo := tx :: b.history.undo, redo := rest },
               last_edit_impact := none }
    (true, b')

end Buffer

namespace Document

/-- `char_to_line_col`: line plus saturating column. -/
def char_to_line_col (d : Document) (char_idx : Nat) : Nat × Nat :=
  let line := d.char_to_line char_idx
  (line, char_idx - lineToChar d.text line)

/-- `line_col_to_char`: line start plus column, clamped at the line end. -/
def line_col_to_char (d : Document) (line col : Nat) : Nat :=
  let line_start := lineToChar d.text line
  let line_end := lineToChar d.text (min (line + 1) d.len_lines)
  min (line_start + col) line_end

end Document

/-- Word classifier from `engine.rs` (`is_alphanumeric() || c == '_'`). Rust's
`char::is_alphanumeric` covers full Unicode; the model uses the ASCII
fragment (`Char.isAlphanum`). The word-motion theorems below are insensitive
to the classifier's extension: they relate the loops to their specification
for the same classifier. -/
def isWordChar (c : Char) : Bool := c.isAlphanum || c = '_'

/-- Rust `char::is_whitespace`: the Unicode `White_Space` code points. -/
def rustIsWhitespace (c : Char) : Bool :=
  c.val = 0x9 || c.val = 0xA || c.val = 0xB || c.val = 0xC || c.val = 0xD ||
  c.val = 0x20 || c.val = 0x85 || c.val = 0xA0 || c.val = 0x1680 ||
  (0x2000 ≤ c.val && c.val ≤ 0x200A) || c.val = 0x2028 || c.val = 0x2029 ||
  c.val = 0x202F || c.val = 0x205F || c.val = 0x3000

/-- `while i > 0 && chars[i].is_whitespace() { i -= 1 }`. -/
def skipWsLeft (chars : List Char) : Nat → Nat
  | 0 => 0
  | i + 1 =>
      if rustIsWhitespace (chars.getD (i + 1) ' ') then skipWsLeft chars i else i + 1

/-- `while i > 0 && is_word_char(chars[i]) && is_word_char(chars[i-1]) { i -= 1 }`. -/
def skipWordLeft (chars : List Char) : Nat → Nat
  | 0 => 0
  | i + 1 =>
      if isWordChar (chars.getD (i + 1) ' ') && isWordChar (chars.getD i ' ') then
        skipWordLeft chars i
      else i + 1

/-- `find_word_left` from `engine.rs`. -/
def find_word_left (chars : List Char) (from_char : Nat) : Nat :=
  let i := min from_char chars.length
  if i = 0 then 0 else skipWordLeft chars (skipWsLeft chars (i - 1))

/-- `while i < len && chars[i].is_whitespace() { i += 1 }`, walking the suffix
`chars.drop i` so the recursion is structural. -/
def skipWsRightAux : List Char → Nat → Nat
  | [], i => i
  | c :: rest, i => if rustIsWhitespace c then skipWsRightAux rest (i + 1) else i

/-- The word-advancing loop of `find_word_right` with its double break,
walking the suffix `chars.drop i`. -/
def advWordRightAux : List Char → Nat → Nat
  | [], i => i
  | c :: rest, i =>
      if !(isWordChar c) then i
      else
        match rest with
        | [] => i + 1
        | d :: _ => if !(isWordChar d) then i + 1 else advWordRightAux rest (i + 1)

/-- `find_word_right` from `engine.rs`. -/
def find_word_right (chars : List Char) (from_char : Nat) : Nat :=
  let i := min from_char chars.length
  let j := skipWsRightAux (chars.drop i) i
  advWordRightAux (chars.drop j) j

/-- `Movement` from `keymap.rs`. -/
inductive Movement where
  | Left
  | Right
  | Up
  | Down
  | WordLeft
  | WordRight
  | LineStart
  | LineEnd
  deriving Repr, DecidableEq

/-- `KeyAction` from `keymap.rs`. -/
inductive KeyAction where
  | Newline
  | Backspace
  | Delete
  | DeleteWordBackward
  | DeleteWordForward
  | DeleteLine
  | Undo
  | Redo
  | Copy
  | Cut
  | Paste
  | Indent
  | Outdent
  | DuplicateLine
  | ToggleComment
  | Move (movement : Movement) (extend : Bool)
  deriving Repr, DecidableEq

/-- `EditorEngine::move_cursors`: per-selection base position rule and
per-movement new head; only the selection set changes. -/
def move_cursors (b : Buffer) (movement : Movement) (extend : Bool) : Buffer :=
  let doc_len := b.doc.len_chars
  let doc_text := b.doc.text
  let selections := b.selections.all_including_primary
  let moved : List Selection := selections.map (fun s =>
    let r := s.range
    let base :=
      if extend then s.head
      else
        match movement with
        | .Left | .Up | .WordLeft | .LineStart => r.1
        | _ => r.2
    let new_head :=
      match movement with
      | .Left => base - 1
      | .Right => min (base + 1) doc_len
      | .LineStart => b.doc.line_start_char (b.doc.char_to_line base)
      | .LineEnd => b.doc.line_end_char (b.doc.char_to_line base)
      | .WordLeft => find_word_left doc_text base
      | .WordRight => find_word_right doc_text base
      | .Up =>
          let lc := b.doc.char_to_line_col base
          if lc.1 = 0 then base else b.doc.line_col_to_char (lc.1 - 1) lc.2
      | .Down =>
          let lc := b.doc.char_to_line_col base
          if lc.1 + 1 ≥ b.doc.len_lines then base else b.doc.line_col_to_char (lc.1 + 1) lc.2
    if extend then (⟨s.anchor, new_head⟩ : Selection) else ⟨new_head, new_head⟩)
  let newSet : SelectionSet :=
    match moved with
    | [] => default
    | p :: rest => ⟨p, rest⟩
  { b with selections := newSet }

/-- Selection contents concatenated by `\n`, as built by the `copy` loop. -/
def joinNewline : List (List Char) → List Char
  | [] => []
  | [x] => x
  | x :: y :: rest => x ++ '\n' :: joinNewline (y :: rest)

/-- `EditorEngine::copy`. -/
def engineCopy (b : Buffer) : List Char :=
  let selections := b.selections.all_including_primary
  if selections.all (fun s => s.is_caret) then []
  else joinNewline (selections.map (fun s => b.doc.slice_to_string s.range.1 s.range.2))

/-- `EditorEngine::cut`: copy, then delete the selections unless the copied
text is empty. -/
def engineCut (b : Buffer) : Buffer × List Char :=
  let text := engineCopy b
  if text.isEmpty then (b, text)
  else (b.apply_text_to_selections [], text)

/-- `EditorEngine::backspace`: with any range selection, delete selections;
otherwise expand each caret one character leftward (no-op carets at 0). -/
def backspace (b : Buffer) : Buffer :=
  let selections := b.selections.all_including_primary
  if selections.any (fun s => !s.is_caret) then b.apply_text_to_selections []
  else
    let all : List Selection := selections.map (fun s =>
      let caret := min s.head b.doc.len_chars
      if caret = 0 then ⟨caret, caret⟩ else ⟨caret - 1, caret⟩)
    let newSet : SelectionSet :=
      match all with
      | [] => default
      | p :: rest => ⟨p, rest⟩
    Buffer.apply_text_to_selections { b with selections := newSet } []

/-- `EditorEngine::delete_forward`: symmetric to backspace, expanding carets
one character rightward. -/
def delete_forward (b : Buffer) : Buffer :=
  let selections := b.selections.all_including_primary
  if selections.any (fun s => !s.is_caret) then b.apply_text_to_selections []
  else
    let all : List Selection := selections.map (fun s =>
      let caret := min s.head b.doc.len_chars
      if b.doc.len_chars ≤ caret then ⟨caret, caret⟩ else ⟨caret, caret + 1⟩)
    let newSet : SelectionSet :=
      match all with
      | [] => default
      | p :: rest => ⟨p, rest⟩
    Buffer.apply_text_to_selections { b with selections := newSet } []

/-- `EditorEngine::delete_word_backward`. -/
def delete_word_backward (b : Buffer) : Buffer :=
  let selections := b.selections.all_including_primary
  if selections.any (fun s => !s.is_caret) then b.apply_text_to_selections []
  else
    let text := b.doc.text
    let ranges : List ReplaceRange := selections.filterMap (fun s =>
      let caret := s.head
      let start := find_word_left text caret
      if start < caret then some ⟨start, caret, []⟩ else none)
    let caret :=
      match ranges.getLast? with
      | some r => r.start_char
      | none => 0
    b.apply_replace_ranges ranges TransactionKind.Delete ⟨⟨caret, caret⟩, []⟩

/-- `EditorEngine::delete_word_forward`. -/
def delete_word_forward (b : Buffer) : Buffer :=
  let selections := b.selections.all_including_primary
  if selections.any (fun s => !s.is_caret) then b.apply_text_to_selections []
  else
    let text := b.doc.text
    let ranges : List ReplaceRange := selections.filterMap (fun s =>
      let caret := s.head
      let stop := find_word_right text caret
      if caret < stop then some ⟨caret, stop, []⟩ else none)
    let caret :=
      match ranges.head? with
      | some r => r.start_char
      | none => 0
    b.apply_replace_ranges ranges TransactionKind.Delete ⟨⟨caret, caret⟩, []⟩

/-- Ascending insertion sort step on line indices (`sort_unstable`). -/
def insertNatAsc (n : Nat) : List Nat → List Nat
  | [] => [n]
  | x :: xs => if x < n then x :: insertNatAsc n xs else n :: x :: xs

def sortNatAsc : List Nat → List Nat
  | [] => []
  | x :: xs => insertNatAsc x (sortNatAsc xs)

/-- `Vec::dedup`: drop adjacent duplicates. -/
def dedupAdj : List Nat → List Nat
  | [] => []
  | [x] => [x]
  | x :: y :: rest => if x = y then dedupAdj (y :: rest) else x :: dedupAdj (y :: rest)

/-- `EditorEngine::delete_line`. -/
def delete_line (b : Buffer) : Buffer :=
  let selections := b.selections.all_including_primary
  let line_idxs := dedupAdj (sortNatAsc (selections.map (fun s => b.doc.char_to_line s.head)))
  let ranges : List ReplaceRange := line_idxs.reverse.filterMap (fun line =>
    let start := b.doc.line_start_char line
    let stop := b.doc.line_end_char line
    if start < stop then some ⟨start, stop, []⟩ else none)
  let caret :=
    match ranges.getLast? with
    | some r => r.start_char
    | none => 0
  b.apply_replace_ranges ranges TransactionKind.Delete ⟨⟨caret, caret⟩, []⟩

/-- `trim_end_matches('\n')`. -/
def trimEndNewlines (l : List Char) : List Char :=
  (l.reverse.dropWhile (fun c => c = '\n')).reverse

/-- `duplicate_line`: replace each unique touched line with
`"{line}\n{line}{line_break}"`. -/
def duplicate_line (b : Buffer) : Buffer :=
  let selections := b.selections.all_including_primary
  let lines := dedupAdj (sortNatAsc (selections.map (fun s => b.doc.char_to_line s.head)))
  let ranges : List ReplaceRange := lines.reverse.map (fun line =>
    let start := b.doc.line_start_char line
    let stop := b.doc.line_end_char line
    let original := b.doc.slice_to_string start stop
    let line_text := if original.getLast? = some '\n' then trimEndNewlines original else original
    let line_break : List Char := if original.getLast? = some '\n' then ['\n'] else []
    ⟨start, stop, line_text ++ '\n' :: line_text ++ line_break⟩)
  let caret := b.selections.primary.head
  b.apply_replace_ranges ranges TransactionKind.Other ⟨⟨caret, caret⟩, []⟩

/-- `apply_line_prefix_edit` from `engine.rs`. -/
def apply_line_prefix_edit (b : Buffer) (pre : List Char) (remove : Bool) : Buffer :=
  let selections := b.selections.all_including_primary
  let lines := dedupAdj (sortNatAsc (selections.foldr (fun s acc =>
    b.doc.char_to_line s.range.1 :: b.doc.char_to_line s.range.2 :: acc) []))
  let ranges : List ReplaceRange := lines.reverse.filterMap (fun line =>
    let start := b.doc.line_start_char line
    if remove then
      let current := b.doc.slice_to_string start (min (start + pre.length) b.doc.len_chars)
      if current = pre then some ⟨start, start + pre.length, []⟩ else none
    else some ⟨start, start, pre⟩)
  if ranges.isEmpty then b
  else
    let caret := b.selections.primary.head
    b.apply_replace_ranges ranges TransactionKind.Other ⟨⟨caret, caret⟩, []⟩

/-- `toggle_line_prefix` from `engine.rs`. -/
def toggle_line_prefix (b : Buffer) (pre : List Char) : Buffer :=
  let selections := b.selections.all_including_primary
  let lines := dedupAdj (sortNatAsc (selections.foldr (fun s acc =>
    b.doc.char_to_line s.range.1 :: b.doc.char_to_line s.range.2 :: acc) []))
  if lines.isEmpty then b
  else
    let all_have_prefix := lines.all (fun line =>
      let start := b.doc.line_start_char line
      let check_end := min (start + pre.length) b.doc.len_chars
      b.doc.slice_to_string start check_end = pre)
    if all_have_prefix then apply_line_prefix_edit b pre true
    else apply_line_prefix_edit b pre false

/-- `EditorEngine::apply_key_action`; the in-out clipboard is passed and
returned explicitly. -/
def apply_key_action (action : KeyAction) (b : Buffer) (clipboard_text : List Char) :
    Buffer × List Char :=
  match action with
  | .Newline => (b.apply_text_to_selections ['\n'], clipboard_text)
  | .Backspace => (backspace b, clipboard_text)
  | .Delete => (delete_forward b, clipboard_text)
  | .DeleteWordBackward => (delete_word_backward b, clipboard_text)
  | .DeleteWordForward => (delete_word_forward b, clipboard_text)
  | .DeleteLine => (delete_line b, clipboard_text)
  | .Undo => ((b.undo).2, clipboard_text)
  | .Redo => ((b.redo).2, clipboard_text)
  | .Copy => (b, engineCopy b)
  | .Cut => engineCut b
  | .Paste => (b.apply_text_to_selections clipboard_text, clipboard_text)
  | .Indent => (apply_line_prefix_edit b "    ".toList false, clipboard_text)
  | .Outdent => (apply_line_prefix_edit b "    ".toList true, clipboard_text)
  | .DuplicateLine => (duplicate_line b, clipboard_text)
  | .ToggleComment => ( toggle_line_prefix b "//".toList, clipboard_text)
  | .Move movement extend => (move_cursors b movement extend, clipboard_text)

/-- `SearchDirection` from `search.rs`. -/
inductive SearchDirection where
  | Forward
  | Backward
  deriving Repr, DecidableEq

/-- `SearchQuery` from `search.rs`. -/
structure SearchQuery where
  needle : List Char
  case_sensitive : Bool
  deriving Repr, DecidableEq

/-- `SearchMatch` from `search.rs` (character-indexed). -/
structure SearchMatch where
  start_char : Nat
  end_char : Nat
  deriving Repr, DecidableEq

/-- Char-wise lowercasing. Rust's `str::to_lowercase` is full Unicode
lowercasing; the model is its char-wise fragment, matching the length
assumption the case-insensitive search itself relies on. -/
def toLowerChars (l : List Char) : List Char := l.map Char.toLower

/-- Whether `needle` is an initial segment of the list. -/
def leadsWith : List Char → List Char → Bool
  | [], _ => true
  | _ :: _, [] => false
  | a :: as, c :: cs => a = c && leadsWith as cs

/-- First match position of `needle` (`str::find` at the character level;
UTF-8 is self-synchronizing, so byte-level matches of a well-formed needle
start at character boundaries and `byte_to_char_idx` recovers this index). -/
def subIndex (needle : List Char) : List Char → Option Nat
  | [] => if needle.isEmpty then some 0 else none
  | c :: rest =>
      if leadsWith needle (c :: rest) then some 0
      else (subIndex needle rest).map (fun j => j + 1)

/-- Last match position of `needle` (`str::rfind` at the character level). -/
def rsubIndex (needle : List Char) : List Char → Option Nat
  | [] => if needle.isEmpty then some 0 else none
  | c :: rest =>
      match rsubIndex needle rest with
      | some j => some (j + 1)
      | none => if leadsWith needle (c :: rest) then some 0 else none

/-- `EditorEngine::find_next`: empty-needle guard, case folding, then a
byte-indexed substring search modelled at the character level. -/
def find_next (b : Buffer) (query : SearchQuery) (from_char : Nat)
    (direction : SearchDirection) : Option SearchMatch :=
  if query.needle.isEmpty then none
  else
    let text := b.doc.text
    let hay := if query.case_sensitive then text else toLowerChars text
    let needle := if query.case_sensitive then query.needle else toLowerChars query.needle
    match direction with
    | .Forward =>
        let start := min from_char hay.length
        (subIndex needle (hay.drop start)).map (fun j =>
          { start_char := start + j, end_char := start + j + needle.length })
    | .Backward =>
        let stop := min from_char hay.length
        (rsubIndex needle (hay.take stop)).map (fun j =>
          { start_char := j, end_char := j + needle.length })

theorem leadsWith_length {needle l : List Char} (h : leadsWith needle l = true) :
    needle.length ≤ l.length := by
  induction needle generalizing l with
  | nil => simp
  | cons a as ih =>
    cases l with
    | nil => simp [leadsWith] at h
    | cons c cs =>
      simp only [leadsWith, Bool.and_eq_true] at h
      simpa [List.length_cons] using ih h.2

theorem subIndex_le {needle l : List Char} {j : Nat} (h : subIndex needle l = some j) :
    j + needle.length ≤ l.length := by
  induction l generalizing j with
  | nil =>
    by_cases hn : needle = []
    · subst hn
      simp only [subIndex, List.isEmpty_nil, if_pos, Option.some.injEq] at h
      simp [h.symm]
    · have : needle.isEmpty = false := by
        cases needle with
        | nil => exact absurd rfl hn
        | cons x xs => rfl
      simp [subIndex, this] at h
  | cons c rest ih =>
    by_cases hp : leadsWith needle (c :: rest) = true
    · rw [subIndex, if_pos hp, Option.some.injEq] at h
      have := leadsWith_length hp
      omega
    · rw [subIndex, if_neg hp, Option.map_eq_some'] at h
      obtain ⟨j', hj', rfl⟩ := h
      have := ih hj'
      simp only [List.length_cons]
      omega

theorem toLowerChars_length (l : List Char) : (toLowerChars l).length = l.length := by
  simp [toLowerChars]

/-- A forward `find_next` hit lies strictly beyond the search origin and
within the document. -/
theorem find_next_forward_some {b : Buffer} {q : SearchQuery} {cursor : Nat}
    {m : SearchMatch} (h : find_next b q cursor .Forward = some m) :
    cursor < m.end_char ∧ m.end_char ≤ b.doc.len_chars ∧
      m.end_char = m.start_char +
        (if q.case_sensitive then q.needle else toLowerChars q.needle).length ∧
      min cursor b.doc.len_chars ≤ m.start_char := by
  unfold find_next at h
  by_cases hq : q.needle.isEmpty = true
  · rw [if_pos hq] at h
    exact absurd h (by simp)
  · rw [if_neg hq] at h
    have hnn : q.needle ≠ [] := fun hcon => hq (by simp [hcon])
    have hne : (if q.case_sensitive then q.needle else toLowerChars q.needle) ≠ [] := by
      cases q.case_sensitive <;> simp [toLowerChars, hnn]
    have hlen : (if q.case_sensitive then b.doc.text else toLowerChars b.doc.text).length
        = b.doc.len_chars := by
      cases q.case_sensitive <;> simp [toLowerChars, Document.len_chars]
    have hn1 : 1 ≤ (if q.case_sensitive then q.needle else toLowerChars q.needle).length := by
      cases hh : (if q.case_sensitive then q.needle else toLowerChars q.needle) with
      | nil => exact absurd hh hne
      | cons x xs => simp
    simp only [Option.map_eq_some'] at h
    obtain ⟨j, hj, hm⟩ := h
    have hb := subIndex_le hj
    rw [List.length_drop, hlen] at hb
    subst hm
    simp only [hlen]
    exact ⟨by omega, by omega, by simp, by omega⟩

/-- The match-collection loop of `replace_all`: find forward from `cursor`,
advance to the match end, stop once the end reaches the document end. -/
def collectMatchesAux (b : Buffer) (query : SearchQuery) (cursor : Nat) :
    List SearchMatch :=
  match h : find_next b query cursor .Forward with
  | none => []
  | some m =>
      if b.doc.len_chars ≤ m.end_char then [m]
      else m :: collectMatchesAux b query m.end_char
termination_by b.doc.len_chars - cursor
decreasing_by
  have := find_next_forward_some h
  omega

/-- `EditorEngine::replace_all`: collect disjoint forward matches, replace
them in one `apply_replace_ranges` transaction, caret after the last range. -/
def replace_all (b : Buffer) (query : SearchQuery) (replacement : List Char) :
    Nat × Buffer :=
  if query.needle.isEmpty then (0, b)
  else
    let ms := collectMatchesAux b query 0
    if ms.isEmpty then (0, b)
    else
      let ranges : List ReplaceRange := ms.map (fun m =>
        { start_char := m.start_char, end_char := m.end_char, inserted := replacement })
      let caret :=
        match ranges.getLast? with
        | some r => r.start_char + replacement.length
        | none => 0
      (ms.length, b.apply_replace_ranges ranges TransactionKind.Replace ⟨⟨caret, caret⟩, []⟩)

/-- Line-cache lookup (`HashMap` modelled as an association list keyed by the
line index; the engine only gets, removes and inserts by key). -/
def cacheGet (cache : List (Nat × List Char)) (k : Nat) : Option (List Char) :=
  match cache.find? (fun e => e.1 = k) with
  | some e => some e.2
  | none => none

def cacheRemove (cache : List (Nat × List Char)) (k : Nat) : List (Nat × List Char) :=
  cache.filter (fun e => !(e.1 = k))

def cacheInsert (cache : List (Nat × List Char)) (k : Nat) (v : List Char) :
    List (Nat × List Char) :=
  (k, v) :: cacheRemove cache k

/-- `for line in start..=stop { self.line_cache.remove(&line); }`. -/
def evictRange (cache : List (Nat × List Char)) (start stop : Nat) :
    List (Nat × List Char) :=
  (List.range' start (stop + 1 - start)).foldl cacheRemove cache

/-- The cache-relevant engine state: buffer, line cache (holding each cached
line's text; the shaped run carried alongside it in `CachedLine` does not
affect which keys are cached and is omitted), cache stamps, viewport. -/
structure EngineState where
  buffer : Buffer
  line_cache : List (Nat × List Char)
  cached_doc_version : Nat
  cached_line_count : Nat
  viewport_first_line : Nat
  viewport_max_lines : Nat
  deriving Repr, DecidableEq

/-- The cache-invalidation phase at the top of `EditorEngine::view_model`:
on a version change, drop everything when the line count changed or no
impact is recorded, else drop the impact's clamped line range; refresh the
cache stamps. -/
def viewModelEvict (e : EngineState) : EngineState :=
  let doc_version := e.buffer.doc.version
  let line_count := e.buffer.doc.len_lines
  if doc_version ≠ e.cached_doc_version then
    let cache' :=
      if line_count ≠ e.cached_line_count then []
      else
        match e.buffer.last_edit_impact with
        | some impact =>
            let start := min impact.start_line line_count
            let stop := min impact.end_line_inclusive (line_count - 1)
            evictRange e.line_cache start stop
        | none => []
    { e with line_cache := cache', cached_doc_version := doc_version,
             cached_line_count := line_count }
  else e

/-- The cache-population part of the `view_model` paint loop: each visible
line missing from the cache is fetched (`line_text`) and inserted. -/
def viewModelPopulate (e : EngineState) : EngineState :=
  let line_count := e.buffer.doc.len_lines
  let first := min e.viewport_first_line line_count
  let last_exclusive := min (first + e.viewport_max_lines) line_count
  let cache' := (List.range' first (last_exclusive - first)).foldl (fun c l =>
    match cacheGet c l with
    | some _ => c
    | none => cacheInsert c l (e.buffer.doc.line_text l)) e.line_cache
  { e with line_cache := cache' }

/-- The line-cache effect of one `view_model()` pull: eviction then
population. -/
def viewModelPull (e : EngineState) : EngineState :=
  viewModelPopulate (viewModelEvict e)

/-! ### General lemmas about the document surgery -/

theorem listRemove_decomp (A mid B : List Char) :
    listRemove (A ++ (mid ++ B)) A.length (A.length + mid.length) = A ++ B := by
  unfold listRemove
  rw [List.take_left, show A ++ (mid ++ B) = (A ++ mid) ++ B from (List.append_assoc ..).symm,
    List.drop_left' (by simp)]

theorem listInsert_decomp (A B ins : List Char) :
    listInsert (A ++ B) A.length ins = A ++ (ins ++ B) := by
  unfold listInsert
  rw [List.take_left, List.drop_left, List.append_assoc]

/-- `replace_range` always bumps the version. -/
theorem replace_range_version (d : Document) (a e : Nat) (ins : List Char) :
    (d.replace_range a e ins).version = wrap64 (d.version + 1) := rfl

/-- Effect of `replace_range` on a decomposed document. -/
theorem replace_range_text_decomp (v : Nat) (A mid B ins : List Char) :
    (Document.replace_range ⟨A ++ (mid ++ B), v⟩ A.length (A.length + mid.length) ins).text
      = A ++ (ins ++ B) := by
  have hT : (A ++ (mid ++ B)).length = A.length + mid.length + B.length := by
    simp [Nat.add_assoc]
  have h1 : min A.length (A ++ (mid ++ B)).length = A.length := by
    rw [hT]; exact Nat.min_eq_left (by omega)
  have h2 : min (A.length + mid.length) (A ++ (mid ++ B)).length = A.length + mid.length := by
    rw [hT]; exact Nat.min_eq_left (by omega)
  simp only [Document.replace_range, h1, h2]
  by_cases hm : mid = []
  · subst hm
    simp only [List.length_nil, Nat.add_zero, Nat.lt_irrefl, if_false]
    by_cases hi : ins = [] <;> simp [hi, listInsert_decomp]
  · have hlt : A.length < A.length + mid.length := by
      have : 0 < mid.length := List.length_pos.mpr hm
      omega
    simp only [hlt, if_true, listRemove_decomp]
    by_cases hi : ins = [] <;> simp [hi, listInsert_decomp]

/-- Effect of `slice_to_string` on a decomposed document. -/
theorem slice_to_string_decomp (v : Nat) (A mid B : List Char) :
    (Document.mk (A ++ (mid ++ B)) v).slice_to_string A.length (A.length + mid.length)
      = mid := by
  have hT : (A ++ (mid ++ B)).length = A.length + mid.length + B.length := by
    simp [Nat.add_assoc]
  have h1 : min A.length (A ++ (mid ++ B)).length = A.length := by
    rw [hT]; exact Nat.min_eq_left (by omega)
  have h2 : min (A.length + mid.length) (A ++ (mid ++ B)).length = A.length + mid.length := by
    rw [hT]; exact Nat.min_eq_left (by omega)
  simp only [Document.slice_to_string, h1, h2]
  by_cases hm : mid = []
  · simp [hm]
  · have hlt : ¬ (A.length + mid.length ≤ A.length) := by
      have : 0 < mid.length := List.length_pos.mpr hm
      omega
    simp only [ge_iff_le, hlt, if_false, Nat.add_sub_cancel_left, List.drop_left]
    exact List.take_left ..

/-- `replace_range` on a decomposed document, whole-document form. -/
theorem replace_range_decomp_doc (v : Nat) (A mid B ins : List Char) :
    Document.replace_range ⟨A ++ (mid ++ B), v⟩ A.length (A.length + mid.length) ins
      = ⟨A ++ (ins ++ B), wrap64 (v + 1)⟩ := by
  have heta : Document.replace_range ⟨A ++ (mid ++ B), v⟩ A.length (A.length + mid.length) ins
      = ⟨(Document.replace_range ⟨A ++ (mid ++ B), v⟩ A.length (A.length + mid.length) ins).text,
         wrap64 (v + 1)⟩ := rfl
  rw [heta, replace_range_text_decomp]

/-- Any list splits around a middle span `[st, en)`. -/
theorem text_decomp (t : List Char) (st en : Nat) (h1 : st ≤ en) (h2 : en ≤ t.length) :
    t = t.take st ++ (((t.drop st).take (en - st)) ++ t.drop en) := by
  have hdrop : t.drop en = (t.drop st).drop (en - st) := by
    rw [List.drop_drop]
    congr 1
    omega
  rw [hdrop, List.take_append_drop, List.take_append_drop]

/-! ### Claim C6: version increments -/

/-- C6 (amended): `insert` (at an in-range index) and `replace_range` always
bump the wrapping 64-bit version; `delete_range` bumps it exactly when the
range is non-empty (`a < b`, in range) and leaves it unchanged when `a ≥ b`. -/
theorem claim_C6_version_increments (d : Document) (c a e : Nat) (s : List Char) :
    (c ≤ d.text.length → (d.insert c s).version = wrap64 (d.version + 1)) ∧
    ((d.replace_range a e s).version = wrap64 (d.version + 1)) ∧
    (a < e → e ≤ d.text.length → (d.delete_range a e).version = wrap64 (d.version + 1)) ∧
    (e ≤ a → (d.delete_range a e).version = d.version) := by
  refine ⟨fun _ => rfl, rfl, fun hlt _ => ?_, fun hge => ?_⟩
  · rw [Document.delete_range, if_neg (by omega)]
  · rw [Document.delete_range, if_pos (by omega)]

/-- C6 counterexample: `delete_range(1, 1)` (an `a ≥ b` call) does not bump
the version, refuting "every call to each of the three document mutations
increments the version counter". -/
theorem claim_C6_counterexample :
    ¬ (((Document.new "abc".toList).delete_range 1 1).version
        = wrap64 ((Document.new "abc".toList).version + 1)) := by decide

theorem claim_C6_witness :
    (1 ≤ (Document.new "abc".toList).text.length ∧
      ((Document.new "abc".toList).insert 1 "x".toList).version
        = wrap64 ((Document.new "abc".toList).version + 1)) ∧
    (((Document.new "abc".toList).delete_range 1 2).version
        = wrap64 ((Document.new "abc".toList).version + 1)) ∧
    (((Document.new "abc".toList).delete_range 2 2).version
        = (Document.new "abc".toList).version) := by
  have h := claim_C6_version_increments (Document.new "abc".toList) 1 1 2 "x".toList
  have h' := claim_C6_version_increments (Document.new "abc".toList) 1 2 2 "x".toList
  exact ⟨⟨by decide, h.1 (by decide)⟩, h.2.2.1 (by decide) (by decide),
    h'.2.2.2 (by decide)⟩

/-! ### Claim C10: Move actions only touch the selection set -/

/-- C10: every `Move{movement, extend}` key action leaves the document (text
and version), both history stacks, and `last_edit_impact` unchanged, and does
not touch the clipboard; only the selection set changes. -/
theorem claim_C10_move_frame (b : Buffer) (movement : Movement) (extend : Bool)
    (clipboard : List Char) :
    (apply_key_action (.Move movement extend) b clipboard).1.doc.text = b.doc.text ∧
    (apply_key_action (.Move movement extend) b clipboard).1.doc.version = b.doc.version ∧
    (apply_key_action (.Move movement extend) b clipboard).1.history = b.history ∧
    (apply_key_action (.Move movement extend) b clipboard).1.last_edit_impact
      = b.last_edit_impact ∧
    (apply_key_action (.Move movement extend) b clipboard).2 = clipboard :=
  ⟨rfl, rfl, rfl, rfl, rfl⟩

/-! ### Claim C3: concrete caret scenario -/

/-- The engine after three `Move{Right, extend:false}` presses on `"abc"`. -/
def c3_after_moves : Buffer :=
  (apply_key_action (.Move .Right false)
    (apply_key_action (.Move .Right false)
      (apply_key_action (.Move .Right false) (Buffer.new "abc".toList) []).1 []).1 []).1

def c3_after_backspace : Buffer := (apply_key_action .Backspace c3_after_moves []).1

def c3_after_undo : Buffer := (apply_key_action .Undo c3_after_backspace []).1

/-- C3 counterexample: after the scripted Move/Backspace/Undo sequence the
caret sits at 2, not at 3 as the claim states (`Buffer::undo` replays the
inverse edits but never touches the selection set). -/
theorem claim_C3_counterexample : ¬ (c3_after_undo.selections.primary.head = 3) := by decide

/-- C3 (amended): on `"abc"` with a caret at 0, three `Move{Right,false}`
leave the caret at 3; `Backspace` yields `"ab"` with the caret at 2; `Undo`
restores `"abc"` and leaves the caret at 2. -/
theorem claim_C3_scenario :
    c3_after_moves.doc.text = "abc".toList ∧
    c3_after_moves.selections.primary = ⟨3, 3⟩ ∧
    c3_after_backspace.doc.text = "ab".toList ∧
    c3_after_backspace.selections.primary = ⟨2, 2⟩ ∧
    c3_after_undo.doc.text = "abc".toList ∧
    c3_after_undo.selections.primary = ⟨2, 2⟩ := by decide

/-! ### Single-selection evaluation of `apply_text_to_selections` -/

theorem range_fst_le_snd (s : Selection) : s.range.1 ≤ s.range.2 := by
  unfold Selection.range
  by_cases h : s.anchor ≤ s.head <;> simp [h] <;> omega

theorem range_snd_le {s : Selection} {n : Nat} (ha : s.anchor ≤ n) (hh : s.head ≤ n) :
    s.range.2 ≤ n := by
  unfold Selection.range
  by_cases h : s.anchor ≤ s.head <;> simp [h] <;> omega

theorem slice_eval (d : Document) (st en : Nat) (h1 : st ≤ en) (h2 : en ≤ d.text.length) :
    d.slice_to_string st en = (d.text.drop st).take (en - st) := by
  unfold Document.slice_to_string
  rw [Nat.min_eq_left (le_trans h1 h2), Nat.min_eq_left h2]
  by_cases h : en ≤ st
  · have hz : en - st = 0 := by omega
    simp [ge_iff_le, h, hz]
  · simp [ge_iff_le, h]

/-- Full evaluation of `apply_text_to_selections` on a buffer whose selection
set is a single in-range primary selection and whose edit is not the empty
no-op. -/
theorem apply_text_single_eval (b : Buffer) (ins : List Char)
    (hsec : b.selections.secondary = [])
    (hen : b.selections.primary.range.2 ≤ b.doc.text.length)
    (hne : ¬ ((b.doc.text.drop b.selections.primary.range.1).take
        (b.selections.primary.range.2 - b.selections.primary.range.1) = [] ∧ ins = [])) :
    b.apply_text_to_selections ins =
      { doc := ⟨b.doc.text.take b.selections.primary.range.1 ++
          (ins ++ b.doc.text.drop b.selections.primary.range.2),
          wrap64 (b.doc.version + 1)⟩,
        selections := ⟨⟨b.selections.primary.range.1 + ins.length,
          b.selections.primary.range.1 + ins.length⟩, []⟩,
        history := b.history.push
          ⟨(if ins.isEmpty then TransactionKind.Delete
            else if b.selections.primary.is_caret then TransactionKind.Insert
            else TransactionKind.Replace),
           [⟨b.selections.primary.range.1,
             (b.doc.text.drop b.selections.primary.range.1).take
               (b.selections.primary.range.2 - b.selections.primary.range.1), ins⟩]⟩
          (decide ((if ins.isEmpty then TransactionKind.Delete
            else if b.selections.primary.is_caret then TransactionKind.Insert
            else TransactionKind.Replace) = TransactionKind.Insert) && (ins.length == 1)),
        last_edit_impact := some
          ⟨charToLine b.doc.text b.selections.primary.range.1,
           charToLine b.doc.text b.selections.primary.range.2 + (countNewlines ins + 1)⟩ } := by
  have hst := range_fst_le_snd b.selections.primary
  set st := b.selections.primary.range.1 with hstdef
  set en := b.selections.primary.range.2 with hendef
  have hstlen : st ≤ b.doc.text.length := le_trans hst hen
  have hmid : b.doc.slice_to_string st en = (b.doc.text.drop st).take (en - st) :=
    slice_eval b.doc st en hst hen
  have hmidlen : ((b.doc.text.drop st).take (en - st)).length = en - st := by
    rw [List.length_take, List.length_drop]
    omega
  have hAlen : (b.doc.text.take st).length = st := by
    rw [List.length_take]; omega
  have hdoc : b.doc = ⟨b.doc.text.take st ++
      (((b.doc.text.drop st).take (en - st)) ++ b.doc.text.drop en), b.doc.version⟩ := by
    conv_lhs => rw [show b.doc = ⟨b.doc.text, b.doc.version⟩ from rfl,
      text_decomp b.doc.text st en hst hen]
  have happly : Buffer.applyEditsForward b.doc
      (sortEditsDesc [⟨st, (b.doc.text.drop st).take (en - st), ins⟩]) =
      ⟨b.doc.text.take st ++ (ins ++ b.doc.text.drop en), wrap64 (b.doc.version + 1)⟩ := by
    show Buffer.applyEditsForward b.doc [⟨st, (b.doc.text.drop st).take (en - st), ins⟩] = _
    unfold Buffer.applyEditsForward
    simp only [List.foldl_cons, List.foldl_nil]
    rw [hmidlen]
    have hx := replace_range_decomp_doc b.doc.version (b.doc.text.take st)
      ((b.doc.text.drop st).take (en - st)) (b.doc.text.drop en) ins
    rw [hAlen, hmidlen] at hx
    rw [← hdoc] at hx
    exact hx
  unfold Buffer.apply_text_to_selections
  rw [SelectionSet.all_including_primary, hsec]
  simp only [List.map_cons, List.map_nil, List.all_cons, List.all_nil, Bool.and_true,
    List.foldl_cons, List.foldl_nil]
  rw [hmid]
  rw [if_neg (by
    intro hcon
    rw [Bool.and_eq_true, List.isEmpty_iff, List.isEmpty_iff] at hcon
    exact hne ⟨hcon.1, hcon.2⟩)]
  rw [happly]
  simp only [SelectionSet.is_single_caret, List.isEmpty_nil, Bool.true_and, Bool.and_true,
    listMinD, listMax, List.foldl_cons, List.foldl_nil]
  congr 2
  · simp [SelectionSet.is_single_caret, Selection.is_caret]
  · rw [hstdef, hendef]
    simp only [EditImpact.mk.injEq, Document.char_to_line]
    exact ⟨trivial, by simp⟩

/-! ### Claim C1: selection endpoints stay in range -/

/-- Pre-state for the C1 counterexample: `"ab"` with the primary selecting
`[0,1)` and a secondary selecting `[1,2)`, every endpoint in `[0, 2]`. -/
def c1_pre : Buffer :=
  { doc := Document.new "ab".toList, selections := ⟨⟨0, 1⟩, [⟨1, 2⟩]⟩,
    history := default, last_edit_impact := none }

def c1_post : Buffer := c1_pre.apply_text_to_selections []

/-- C1 counterexample: deleting two adjacent range selections leaves the
secondary caret at 1 while the document shrank to length 0 — the collapsed
carets are placed at the original range starts without accounting for text
removed by the other edits, so an endpoint escapes `[0, len_chars]`. -/
theorem claim_C1_counterexample :
    ∃ s ∈ c1_post.selections.all_including_primary,
      ¬ (s.head ≤ c1_post.doc.len_chars) := by decide

/-- C1 (amended): after `apply_text_to_selections` on a buffer whose
selection set is a single primary selection (no secondaries) with endpoints
in `[0, len_chars]`, every endpoint of the resulting selection set again lies
in `[0, len_chars]` of the resulting document. (With secondary selections,
or after `undo`/`redo` — which never touch the selections — the claimed
invariant fails, as the counterexample shows.) -/
theorem claim_C1_endpoints (b : Buffer) (ins : List Char)
    (hsec : b.selections.secondary = [])
    (ha : b.selections.primary.anchor ≤ b.doc.len_chars)
    (hh : b.selections.primary.head ≤ b.doc.len_chars) :
    ∀ s ∈ (b.apply_text_to_selections ins).selections.all_including_primary,
      s.anchor ≤ (b.apply_text_to_selections ins).doc.len_chars ∧
      s.head ≤ (b.apply_text_to_selections ins).doc.len_chars := by
  have hen : b.selections.primary.range.2 ≤ b.doc.text.length := range_snd_le ha hh
  have hst := range_fst_le_snd b.selections.primary
  by_cases hno : (b.doc.text.drop b.selections.primary.range.1).take
      (b.selections.primary.range.2 - b.selections.primary.range.1) = [] ∧ ins = []
  · have heq : b.apply_text_to_selections ins = b := by
      unfold Buffer.apply_text_to_selections
      rw [SelectionSet.all_including_primary, hsec]
      simp only [List.map_cons, List.map_nil, List.all_cons, List.all_nil, Bool.and_true]
      rw [slice_eval b.doc _ _ hst hen]
      rw [if_pos (by simp [hno.1, hno.2])]
    rw [heq]
    intro s hs
    rw [SelectionSet.all_including_primary, hsec] at hs
    simp only [List.mem_singleton] at hs
    subst hs
    exact ⟨ha, hh⟩
  · rw [apply_text_single_eval b ins hsec hen hno]
    intro s hs
    simp only [SelectionSet.all_including_primary, List.mem_singleton] at hs
    subst hs
    refine ⟨?_, ?_⟩ <;>
      · simp only [Document.len_chars, List.length_append, List.length_take,
          List.length_drop]
        omega

theorem claim_C1_witness :
    ((Buffer.new "ab".toList).apply_text_to_selections "xy".toList).selections.primary.head
      ≤ ((Buffer.new "ab".toList).apply_text_to_selections "xy".toList).doc.len_chars :=
  (claim_C1_endpoints (Buffer.new "ab".toList) "xy".toList rfl (by decide) (by decide)
    ((Buffer.new "ab".toList).apply_text_to_selections "xy".toList).selections.primary
    (by simp [SelectionSet.all_including_primary])).2

/-! ### Claim C4: push / coalescing -/

/-- `History::push` phrased exactly as the specification words it: one flat
conjunction of guards deciding between coalescing into the previous one-edit
insert and a plain push; redo is cleared either way. -/
def History.pushSpec (h : History) (tx : Transaction) (allow : Bool) : History :=
  match h.undo with
  | prev :: rest =>
      if allow = true ∧ tx.kind = TransactionKind.Insert ∧
          prev.kind = TransactionKind.Insert ∧
          prev.edits.length = 1 ∧ tx.edits.length = 1 ∧
          (prev.edits.headD default).deleted = [] ∧ (tx.edits.headD default).deleted = [] ∧
          (prev.edits.headD default).start_char + (prev.edits.headD default).inserted.length
            = (tx.edits.headD default).start_char then
        { undo := { prev with edits := [{ prev.edits.headD default with
            inserted := (prev.edits.headD default).inserted
              ++ (tx.edits.headD default).inserted }] } :: rest,
          redo := [] }
      else { undo := tx :: h.undo, redo := [] }
  | [] => { undo := tx :: h.undo, redo := [] }

theorem push_eq_pushSpec (h : History) (tx : Transaction) (allow : Bool) :
    History.push h tx allow = History.pushSpec h tx allow := by
  obtain ⟨undo, redo⟩ := h
  obtain ⟨tk, tes⟩ := tx
  cases undo with
  | nil => cases allow <;> cases tk <;> rfl
  | cons prev rest =>
    obtain ⟨pk, pes⟩ := prev
    cases allow with
    | false => rfl
    | true =>
      cases tk <;> try rfl
      cases pk <;> try rfl
      rcases pes with _ | ⟨pe, pes'⟩
      · rfl
      rcases pes' with _ | ⟨pe2, pes''⟩
      · rcases tes with _ | ⟨ne, tes'⟩
        · rfl
        rcases tes' with _ | ⟨ne2, tes''⟩
        · simp only [History.push, History.pushSpec]
          split_ifs with h1 h2 h3
          any_goals rfl
          all_goals simp_all [List.isEmpty_iff]
        · rfl
      · rfl

/-- Caret-specialised evaluation of a non-empty text insertion. -/
theorem apply_text_caret_insert (b : Buffer) (p : Nat) (ins : List Char)
    (hsel : b.selections = ⟨⟨p, p⟩, []⟩) (hp : p ≤ b.doc.text.length) (hne : ins ≠ []) :
    b.apply_text_to_selections ins =
      { doc := ⟨b.doc.text.take p ++ (ins ++ b.doc.text.drop p), wrap64 (b.doc.version + 1)⟩,
        selections := ⟨⟨p + ins.length, p + ins.length⟩, []⟩,
        history := b.history.push ⟨TransactionKind.Insert, [⟨p, [], ins⟩]⟩ (ins.length == 1),
        last_edit_impact := some ⟨charToLine b.doc.text p,
          charToLine b.doc.text p + (countNewlines ins + 1)⟩ } := by
  have hr : b.selections.primary.range = (p, p) := by
    rw [hsel]; simp [Selection.range]
  have h := apply_text_single_eval b ins (by rw [hsel])
    (by rw [hr]; exact hp)
    (by rw [hr]; simp [hne])
  rw [h, hr]
  simp [Selection.is_caret, List.isEmpty_iff, hne, hsel]

/-- C4: `History::push` implements exactly the specified append-or-coalesce
rule (`pushSpec`, written from the spec's words); consequently two successive
single-character inserts at a single caret collapse into one undo entry with
the concatenated insertion, while an insert at a non-adjacent caret position
`q ≠ p + 1` starts a second entry. Redo is cleared in all cases. -/
theorem claim_C4_push_coalescing (h : History) (tx : Transaction) (allow : Bool)
    (b : Buffer) (p q : Nat) (c c' : Char)
    (hhist : b.history = ⟨[], []⟩)
    (hsel : b.selections = ⟨⟨p, p⟩, []⟩)
    (hp : p ≤ b.doc.text.length)
    (hq : q ≠ p + 1)
    (hqlen : q ≤ (b.apply_text_to_selections [c]).doc.text.length) :
    History.push h tx allow = History.pushSpec h tx allow ∧
    ((b.apply_text_to_selections [c]).apply_text_to_selections [c']).history
      = ⟨[⟨TransactionKind.Insert, [⟨p, [], [c, c']⟩]⟩], []⟩ ∧
    (({ b.apply_text_to_selections [c] with
        selections := ⟨⟨q, q⟩, []⟩ } : Buffer).apply_text_to_selections [c']).history.undo.length
      = 2 := by
  have hb1 := apply_text_caret_insert b p [c] hsel hp (by simp)
  refine ⟨push_eq_pushSpec h tx allow, ?_, ?_⟩
  · have hlen1 : p + 1 ≤ (b.apply_text_to_selections [c]).doc.text.length := by
      rw [hb1]
      simp only [List.length_append, List.length_take, List.length_drop,
        List.length_cons, List.length_nil]
      omega
    have hb2 := apply_text_caret_insert (b.apply_text_to_selections [c]) (p + 1) [c']
      (by rw [hb1]; rfl) hlen1 (by simp)
    rw [hb2]
    show (b.apply_text_to_selections [c]).history.push
      ⟨TransactionKind.Insert, [⟨p + 1, [], [c']⟩]⟩ ([c'].length == 1) = _
    rw [hb1]
    show (History.push b.history ⟨TransactionKind.Insert, [⟨p, [], [c]⟩]⟩
      ([c].length == 1)).push ⟨TransactionKind.Insert, [⟨p + 1, [], [c']⟩]⟩
      ([c'].length == 1) = _
    rw [hhist]
    simp [History.push]
  · have hb2' := apply_text_caret_insert
      ({ b.apply_text_to_selections [c] with selections := ⟨⟨q, q⟩, []⟩ } : Buffer) q [c']
      rfl hqlen (by simp)
    rw [hb2']
    show (({ b.apply_text_to_selections [c] with
      selections := ⟨⟨q, q⟩, []⟩ } : Buffer).history.push
      ⟨TransactionKind.Insert, [⟨q, [], [c']⟩]⟩ ([c'].length == 1)).undo.length = 2
    have hhist' : ({ b.apply_text_to_selections [c] with
        selections := ⟨⟨q, q⟩, []⟩ } : Buffer).history
        = (b.apply_text_to_selections [c]).history := rfl
    rw [hhist', hb1]
    show ((History.push b.history ⟨TransactionKind.Insert, [⟨p, [], [c]⟩]⟩
      ([c].length == 1)).push ⟨TransactionKind.Insert, [⟨q, [], [c']⟩]⟩
      ([c'].length == 1)).undo.length = 2
    rw [hhist]
    have hq2 : ¬ (p + 1 = q) := fun hcon => hq hcon.symm
    simp [History.push, hq2]

theorem claim_C4_witness :
    (((Buffer.new "ab".toList).apply_text_to_selections
        ['x']).apply_text_to_selections ['y']).history
      = ⟨[⟨TransactionKind.Insert, [⟨0, [], ['x', 'y']⟩]⟩], []⟩ :=
  (claim_C4_push_coalescing ⟨[], []⟩ ⟨TransactionKind.Other, []⟩ false
    (Buffer.new "ab".toList) 0 0 'x' 'y' rfl rfl (by decide) (by decide) (by decide)).2.1

/-! ### Claim C2: undo/redo roundtrip -/

/-- Two carets (positions 0 and 1) on `"ab"`; a single insert transaction
with two edits. -/
def c2_pre : Buffer :=
  { doc := Document.new "ab".toList, selections := ⟨⟨0, 0⟩, [⟨1, 1⟩]⟩,
    history := default, last_edit_impact := none }

def c2_post : Buffer := c2_pre.apply_text_to_selections ['X']

/-- C2 counterexample: one transaction (a two-caret insert of `"X"` on
`"ab"`) produces `"XaXb"`, but undo yields `"Xb"` and redo then yields
`"XXXb"` — undo replays inverses in descending start order, which does not
invert a multi-edit transaction whose edits change lengths. -/
theorem claim_C2_counterexample :
    c2_post.doc.text = "XaXb".toList ∧
    (c2_post.undo).2.doc.text ≠ "ab".toList ∧
    (((c2_post.undo).2.redo).2).doc.text ≠ c2_post.doc.text := by decide

/-- C2 (amended): for a buffer whose top undo transaction has exactly one
edit recording the applied replacement (document `A ++ ins ++ B`, edit
`{start: |A|, deleted: del, inserted: ins}`), undo returns `true` and yields
`A ++ del ++ B`; redo then restores `A ++ ins ++ B`, and undo again yields
`A ++ del ++ B`. The roundtrip fails for multi-edit transactions (see the
counterexample). -/
theorem claim_C2_undo_redo_roundtrip (b : Buffer) (k : TransactionKind)
    (A del ins B : List Char) (rest : List Transaction)
    (hundo : b.history.undo = ⟨k, [⟨A.length, del, ins⟩]⟩ :: rest)
    (hdoc : b.doc.text = A ++ (ins ++ B)) :
    (b.undo).1 = true ∧
    (b.undo).2.doc.text = A ++ (del ++ B) ∧
    ((b.undo).2.redo).2.doc.text = A ++ (ins ++ B) ∧
    (((b.undo).2.redo).2.undo).2.doc.text = A ++ (del ++ B) := by
  obtain ⟨⟨txt, ver⟩, sels, ⟨hu, hr⟩, impact⟩ := b
  simp only at hundo hdoc
  subst hundo
  subst hdoc
  have h1 : Buffer.undo ⟨⟨A ++ (ins ++ B), ver⟩, sels,
      ⟨⟨k, [⟨A.length, del, ins⟩]⟩ :: rest, hr⟩, impact⟩
      = (true, ⟨⟨A ++ (del ++ B), wrap64 (ver + 1)⟩, sels,
        ⟨rest, ⟨k, [⟨A.length, del, ins⟩]⟩ :: hr⟩, none⟩) := by
    unfold Buffer.undo
    simp only [Buffer.applyEditsInverse, sortEditsDesc, insertDesc,
      List.foldl_cons, List.foldl_nil]
    rw [replace_range_decomp_doc]
  have h2 : Buffer.redo ⟨⟨A ++ (del ++ B), wrap64 (ver + 1)⟩, sels,
      ⟨rest, ⟨k, [⟨A.length, del, ins⟩]⟩ :: hr⟩, none⟩
      = (true, ⟨⟨A ++ (ins ++ B), wrap64 (wrap64 (ver + 1) + 1)⟩, sels,
        ⟨⟨k, [⟨A.length, del, ins⟩]⟩ :: rest, hr⟩, none⟩) := by
    unfold Buffer.redo
    simp only [Buffer.applyEditsForward, sortEditsDesc, insertDesc,
      List.foldl_cons, List.foldl_nil]
    rw [replace_range_decomp_doc]
  have h3 : Buffer.undo ⟨⟨A ++ (ins ++ B), wrap64 (wrap64 (ver + 1) + 1)⟩, sels,
      ⟨⟨k, [⟨A.length, del, ins⟩]⟩ :: rest, hr⟩, none⟩
      = (true, ⟨⟨A ++ (del ++ B), wrap64 (wrap64 (wrap64 (ver + 1) + 1) + 1)⟩, sels,
        ⟨rest, ⟨k, [⟨A.length, del, ins⟩]⟩ :: hr⟩, none⟩) := by
    unfold Buffer.undo
    simp only [Buffer.applyEditsInverse, sortEditsDesc, insertDesc,
      List.foldl_cons, List.foldl_nil]
    rw [replace_range_decomp_doc]
  rw [h1]
  simp only
  rw [h2]
  simp only
  rw [h3]
  exact ⟨trivial, trivial, trivial, rfl⟩

theorem claim_C2_witness :
    ((((Buffer.new "ab".toList).apply_text_to_selections "X".toList).undo).2).doc.text
      = "ab".toList ∧
    ((((((Buffer.new "ab".toList).apply_text_to_selections "X".toList).undo).2.redo).2)).doc.text
      = "Xab".toList := by
  have h := claim_C2_undo_redo_roundtrip
    ((Buffer.new "ab".toList).apply_text_to_selections "X".toList)
    TransactionKind.Insert [] [] "X".toList "ab".toList [] (by decide) (by decide)
  exact ⟨h.2.1, h.2.2.1⟩

/-! ### Claim C9: empty-needle and empty-stack guards -/

/-- C9: with an empty needle `find_next` returns `none` and `replace_all`
returns `0`, for every document, start position and direction; `undo` and
`redo` return `false` on an empty stack; the buffer (hence the document) is
unchanged in all these cases. -/
theorem claim_C9_empty_guards (b : Buffer) (q : SearchQuery) (from_char : Nat)
    (dir : SearchDirection) (repl : List Char) :
    (q.needle = [] → find_next b q from_char dir = none) ∧
    (q.needle = [] → replace_all b q repl = (0, b)) ∧
    (b.history.undo = [] → b.undo = (false, b)) ∧
    (b.history.redo = [] → b.redo = (false, b)) := by
  refine ⟨fun hq => ?_, fun hq => ?_, fun hu => ?_, fun hr => ?_⟩
  · simp [find_next, hq]
  · simp [replace_all, hq]
  · unfold Buffer.undo
    rw [hu]
  · unfold Buffer.redo
    rw [hr]

theorem claim_C9_witness :
    find_next (Buffer.new "abc".toList) ⟨[], true⟩ 0 .Forward = none ∧
    replace_all (Buffer.new "abc".toList) ⟨[], true⟩ "x".toList
      = (0, Buffer.new "abc".toList) ∧
    (Buffer.new "abc".toList).undo = (false, Buffer.new "abc".toList) ∧
    (Buffer.new "abc".toList).redo = (false, Buffer.new "abc".toList) := by
  have h := claim_C9_empty_guards (Buffer.new "abc".toList) ⟨[], true⟩ 0 .Forward "x".toList
  exact ⟨h.1 rfl, h.2.1 rfl, h.2.2.1 rfl, h.2.2.2 rfl⟩

/-! ### Claim C8: word-boundary motions -/

/-- Length of the maximal `p`-run ending at position `j` (inclusive),
reading leftward. -/
def runLeft (p : Char → Bool) (chars : List Char) (j : Nat) : Nat :=
  (((chars.take (j + 1)).reverse).takeWhile p).length

/-- Specification form of "skip whitespace leftward" from position `j`:
subtract the whitespace run ending at `j`, stopping at 0. -/
def specSkipWsLeft (chars : List Char) (j : Nat) : Nat :=
  j - min (runLeft rustIsWhitespace chars j) j

/-- Specification form of "skip word characters leftward while both sides
are word characters": land on the first character of the word run ending at
`j` (or stay when `j` is not on a word character). -/
def specSkipWordLeft (chars : List Char) (j : Nat) : Nat :=
  if runLeft isWordChar chars j = 0 then j else j + 1 - runLeft isWordChar chars j

/-- `WordLeft` as the specification words it: 0 at 0; else decrement once,
skip whitespace leftward, then move to the first character of the word. -/
def specFindWordLeft (chars : List Char) (from_char : Nat) : Nat :=
  let i := min from_char chars.length
  if i = 0 then 0 else specSkipWordLeft chars (specSkipWsLeft chars (i - 1))

/-- `WordRight` as the specification words it: skip whitespace, then advance
through the contiguous word characters, stopping immediately after the last
one. -/
def specFindWordRight (chars : List Char) (from_char : Nat) : Nat :=
  let i := min from_char chars.length
  let a := i + ((chars.drop i).takeWhile rustIsWhitespace).length
  a + ((chars.drop a).takeWhile isWordChar).length

theorem runLeft_le (p : Char → Bool) (chars : List Char) (j : Nat) :
    runLeft p chars j ≤ j + 1 := by
  unfold runLeft
  calc (((chars.take (j + 1)).reverse).takeWhile p).length
      ≤ ((chars.take (j + 1)).reverse).length :=
        List.Sublist.length_le (List.takeWhile_sublist p)
    _ = (chars.take (j + 1)).length := List.length_reverse ..
    _ ≤ j + 1 := List.length_take_le ..

theorem runLeft_rec (p : Char → Bool) (chars : List Char) (j : Nat)
    (hj : j < chars.length) :
    runLeft p chars j =
      if p (chars.getD j ' ') then (((chars.take j).reverse).takeWhile p).length + 1
      else 0 := by
  have ht : chars.take (j + 1) = chars.take j ++ [chars.getD j ' '] := by
    rw [List.take_succ, List.getElem?_eq_getElem hj, List.getD_eq_getElem chars ' ' hj]
    rfl
  unfold runLeft
  rw [ht, List.reverse_append]
  show ((chars.getD j ' ' :: (chars.take j).reverse).takeWhile p).length = _
  rw [List.takeWhile_cons]
  by_cases hp : p (chars.getD j ' ') = true
  · rw [if_pos hp, if_pos hp]
    simp
  · rw [if_neg hp, if_neg hp]
    rfl

theorem skipWsLeft_le (chars : List Char) (j : Nat) : skipWsLeft chars j ≤ j := by
  induction j with
  | zero => simp [skipWsLeft]
  | succ j ih =>
    simp only [skipWsLeft]
    split
    · omega
    · omega

theorem skipWsLeft_eq (chars : List Char) (j : Nat) (hj : j < chars.length) :
    skipWsLeft chars j = specSkipWsLeft chars j := by
  induction j with
  | zero => simp [skipWsLeft, specSkipWsLeft]
  | succ j ih =>
    have hj' : j < chars.length := by omega
    have hrec : runLeft rustIsWhitespace chars (j + 1) =
        if rustIsWhitespace (chars.getD (j + 1) ' ') then
          runLeft rustIsWhitespace chars j + 1 else 0 := by
      have := runLeft_rec rustIsWhitespace chars (j + 1) hj
      rwa [show (((chars.take (j + 1)).reverse).takeWhile rustIsWhitespace).length
        = runLeft rustIsWhitespace chars j from rfl] at this
    have hle := runLeft_le rustIsWhitespace chars j
    simp only [skipWsLeft]
    by_cases hp : rustIsWhitespace (chars.getD (j + 1) ' ') = true
    · rw [if_pos hp, ih hj']
      unfold specSkipWsLeft
      rw [hrec, if_pos hp]
      omega
    · rw [if_neg hp]
      unfold specSkipWsLeft
      rw [hrec, if_neg hp]
      omega

theorem skipWordLeft_eq (chars : List Char) (j : Nat) (hj : j < chars.length) :
    skipWordLeft chars j = specSkipWordLeft chars j := by
  induction j with
  | zero =>
    have h0 := runLeft_le isWordChar chars 0
    simp only [skipWordLeft, specSkipWordLeft]
    split
    · rfl
    · omega
  | succ j ih =>
    have hj' : j < chars.length := by omega
    have hrec : runLeft isWordChar chars (j + 1) =
        if isWordChar (chars.getD (j + 1) ' ') then runLeft isWordChar chars j + 1
        else 0 := by
      have := runLeft_rec isWordChar chars (j + 1) hj
      rwa [show (((chars.take (j + 1)).reverse).takeWhile isWordChar).length
        = runLeft isWordChar chars j from rfl] at this
    have hbase := runLeft_rec isWordChar chars j hj'
    have hle := runLeft_le isWordChar chars j
    simp only [skipWordLeft]
    by_cases h1 : isWordChar (chars.getD (j + 1) ' ') = true
    · by_cases h2 : isWordChar (chars.getD j ' ') = true
      · rw [if_pos (by rw [h1, h2]; rfl), ih hj']
        have hpos : runLeft isWordChar chars j ≠ 0 := by
          rw [hbase, if_pos h2]
          omega
        unfold specSkipWordLeft
        rw [hrec, if_pos h1]
        rw [if_neg hpos]
        rw [if_neg (show ¬ (runLeft isWordChar chars j + 1 = 0) by omega)]
        omega
      · rw [if_neg (by
          intro hcon
          rw [Bool.and_eq_true] at hcon
          exact h2 hcon.2)]
        have hz : runLeft isWordChar chars j = 0 := by rw [hbase, if_neg h2]
        unfold specSkipWordLeft
        rw [hrec, if_pos h1, hz]
        simp
    · rw [if_neg (by
        intro hcon
        rw [Bool.and_eq_true] at hcon
        exact h1 hcon.1)]
      unfold specSkipWordLeft
      rw [hrec, if_neg h1]
      simp

theorem skipWsRightAux_eq (l : List Char) (i : Nat) :
    skipWsRightAux l i = i + (l.takeWhile rustIsWhitespace).length := by
  induction l generalizing i with
  | nil => simp [skipWsRightAux]
  | cons c rest ih =>
    simp only [skipWsRightAux, List.takeWhile_cons]
    by_cases hc : rustIsWhitespace c = true
    · rw [if_pos hc, if_pos hc, ih]
      simp only [List.length_cons]
      omega
    · rw [if_neg hc, if_neg hc]
      simp

theorem advWordRightAux_eq (l : List Char) (i : Nat) :
    advWordRightAux l i = i + (l.takeWhile isWordChar).length := by
  induction l generalizing i with
  | nil => simp [advWordRightAux]
  | cons c rest ih =>
    simp only [advWordRightAux, List.takeWhile_cons]
    by_cases hc : isWordChar c = true
    · rw [if_neg (by simp [hc]), if_pos hc]
      cases rest with
      | nil => simp [List.takeWhile_nil]
      | cons d rest' =>
        simp only
        by_cases hd : isWordChar d = true
        · rw [if_neg (by simp [hd]), ih]
          simp only [List.takeWhile_cons, if_pos hd, List.length_cons]
          omega
        · rw [if_pos (by simp [hd])]
          simp only [List.takeWhile_cons, if_neg hd]
          simp
    · rw [if_pos (by simp [hc]), if_neg hc]
      simp

/-- C8: `find_word_left` and `find_word_right` compute exactly the specified
word-boundary algorithms (word character: alphanumeric or `_`): `WordLeft`
returns 0 at 0, else decrements once, skips the whitespace run leftward and
lands on the first character of the word run; `WordRight` skips the
whitespace run and stops immediately after the contiguous word run. -/
theorem claim_C8_word_motion (chars : List Char) (from_char : Nat) :
    find_word_left chars from_char = specFindWordLeft chars from_char ∧
    find_word_right chars from_char = specFindWordRight chars from_char := by
  constructor
  · show (if min from_char chars.length = 0 then 0
        else skipWordLeft chars (skipWsLeft chars (min from_char chars.length - 1)))
      = (if min from_char chars.length = 0 then 0
        else specSkipWordLeft chars (specSkipWsLeft chars (min from_char chars.length - 1)))
    by_cases hi : min from_char chars.length = 0
    · rw [if_pos hi, if_pos hi]
    · rw [if_neg hi, if_neg hi]
      have hlen : 0 < chars.length := by
        rcases Nat.eq_zero_or_pos chars.length with h | h
        · exact absurd (by simp [h]) hi
        · exact h
      have hj : min from_char chars.length - 1 < chars.length := by
        have := Nat.min_le_right from_char chars.length
        omega
      rw [skipWsLeft_eq chars _ hj]
      have hj2 : specSkipWsLeft chars (min from_char chars.length - 1) < chars.length := by
        have := Nat.sub_le (min from_char chars.length - 1)
          (min (runLeft rustIsWhitespace chars (min from_char chars.length - 1))
            (min from_char chars.length - 1))
        unfold specSkipWsLeft
        omega
      rw [skipWordLeft_eq chars _ hj2]
  · show advWordRightAux
        (chars.drop (skipWsRightAux (chars.drop (min from_char chars.length))
          (min from_char chars.length)))
        (skipWsRightAux (chars.drop (min from_char chars.length))
          (min from_char chars.length))
      = specFindWordRight chars from_char
    rw [skipWsRightAux_eq, advWordRightAux_eq]
    rfl

/-! ### Claim C7: view-model cache invalidation -/

theorem cacheGet_cons (a : Nat) (v : List Char) (rest : List (Nat × List Char)) (l : Nat) :
    cacheGet ((a, v) :: rest) l = if a = l then some v else cacheGet rest l := by
  simp only [cacheGet, List.find?_cons]
  by_cases h : a = l
  · simp [h]
  · simp [h]

theorem cacheRemove_cons (a : Nat) (v : List Char) (rest : List (Nat × List Char)) (k : Nat) :
    cacheRemove ((a, v) :: rest) k =
      if a = k then cacheRemove rest k else (a, v) :: cacheRemove rest k := by
  simp only [cacheRemove, List.filter_cons]
  by_cases h : a = k <;> simp [h]

theorem cacheGet_cacheRemove (cache : List (Nat × List Char)) (k l : Nat) :
    cacheGet (cacheRemove cache k) l = if l = k then none else cacheGet cache l := by
  induction cache with
  | nil => simp [cacheGet, cacheRemove]
  | cons e rest ih =>
    obtain ⟨a, v⟩ := e
    rw [cacheRemove_cons]
    by_cases hak : a = k <;> by_cases hlk : l = k <;> by_cases hal : a = l <;>
      simp_all [cacheGet_cons]

theorem cacheGet_foldl_remove (n start : Nat) (cache : List (Nat × List Char)) (l : Nat) :
    cacheGet ((List.range' start n).foldl cacheRemove cache) l =
      if start ≤ l ∧ l < start + n then none else cacheGet cache l := by
  induction n generalizing start cache with
  | zero =>
    simp only [List.range', List.foldl_nil]
    rw [if_neg (by omega)]
  | succ n ih =>
    rw [List.range'_succ, List.foldl_cons, ih, cacheGet_cacheRemove]
    by_cases h1 : start + 1 ≤ l ∧ l < start + 1 + n
    · rw [if_pos h1, if_pos (by omega)]
    · rw [if_neg h1]
      by_cases h2 : l = start
      · rw [if_pos h2, if_pos (by omega)]
      · rw [if_neg h2, if_neg (by omega)]

/-- Eviction of the inclusive line range `[start, stop]`, lookup view. -/
theorem cacheGet_evictRange (cache : List (Nat × List Char)) (start stop l : Nat) :
    cacheGet (evictRange cache start stop) l =
      if start ≤ l ∧ l ≤ stop then none else cacheGet cache l := by
  unfold evictRange
  rw [cacheGet_foldl_remove]
  by_cases h : start ≤ l ∧ l ≤ stop
  · rw [if_pos (by omega), if_pos h]
  · rw [if_neg (by omega), if_neg h]

/-- The population loop leaves a cache unchanged when every visible line is
already present. -/
theorem populate_id (f : Nat → List Char) (count : Nat) :
    ∀ (first : Nat) (cache : List (Nat × List Char)),
    (∀ l, first ≤ l → l < first + count → (cacheGet cache l).isSome = true) →
    (List.range' first count).foldl (fun c l =>
      match cacheGet c l with
      | some _ => c
      | none => cacheInsert c l (f l)) cache = cache := by
  induction count with
  | zero =>
    intro first cache _
    simp
  | succ n ih =>
    intro first cache hall
    rw [List.range'_succ, List.foldl_cons]
    have hfirst : (cacheGet cache first).isSome = true := hall first (le_refl _) (by omega)
    obtain ⟨v, hv⟩ := Option.isSome_iff_exists.mp hfirst
    rw [hv]
    exact ih (first + 1) cache (fun l h1 h2 => hall l (by omega) (by omega))

/-- C7: when a `view_model` pull happens after the document version changed
but the line count did not, and an `EditImpact {sl, el}` is recorded, the
pull removes exactly the cached lines in `[sl, min el (line_count - 1)]` and
leaves every other cache entry untouched (given that the visible window is
disjoint from the invalidated range and its lines are already cached, as in
the claim's scenario). -/
theorem claim_C7_cache_invalidation (e : EngineState) (sl el : Nat)
    (hver : e.buffer.doc.version ≠ e.cached_doc_version)
    (hlc : e.buffer.doc.len_lines = e.cached_line_count)
    (himp : e.buffer.last_edit_impact = some ⟨sl, el⟩)
    (hdisj : ∀ l, sl ≤ l → l ≤ min el (e.buffer.doc.len_lines - 1) →
      ¬ (min e.viewport_first_line e.buffer.doc.len_lines ≤ l ∧
         l < min (min e.viewport_first_line e.buffer.doc.len_lines + e.viewport_max_lines)
            e.buffer.doc.len_lines))
    (hcached : ∀ l, min e.viewport_first_line e.buffer.doc.len_lines ≤ l →
      l < min (min e.viewport_first_line e.buffer.doc.len_lines + e.viewport_max_lines)
          e.buffer.doc.len_lines →
      (cacheGet e.line_cache l).isSome = true) :
    ∀ l, cacheGet (viewModelPull e).line_cache l =
      if sl ≤ l ∧ l ≤ min el (e.buffer.doc.len_lines - 1) then none
      else cacheGet e.line_cache l := by
  have hlc1 : 1 ≤ e.buffer.doc.len_lines := by
    unfold Document.len_lines
    omega
  have hevict : viewModelEvict e =
      { e with
        line_cache := evictRange e.line_cache (min sl e.buffer.doc.len_lines)
          (min el (e.buffer.doc.len_lines - 1)),
        cached_doc_version := e.buffer.doc.version,
        cached_line_count := e.buffer.doc.len_lines } := by
    unfold viewModelEvict
    rw [if_pos hver, if_neg (fun hco => hco hlc), himp]
  have hcache1 : ∀ l, cacheGet (evictRange e.line_cache (min sl e.buffer.doc.len_lines)
      (min el (e.buffer.doc.len_lines - 1))) l =
      if sl ≤ l ∧ l ≤ min el (e.buffer.doc.len_lines - 1) then none
      else cacheGet e.line_cache l := by
    intro l
    rw [cacheGet_evictRange]
    by_cases h : sl ≤ l ∧ l ≤ min el (e.buffer.doc.len_lines - 1)
    · rw [if_pos (by omega), if_pos h]
    · rw [if_neg (by omega), if_neg h]
  intro l
  show cacheGet (viewModelPopulate (viewModelEvict e)).line_cache l = _
  rw [hevict]
  show cacheGet ((List.range' (min e.viewport_first_line e.buffer.doc.len_lines)
      (min (min e.viewport_first_line e.buffer.doc.len_lines + e.viewport_max_lines)
        e.buffer.doc.len_lines - min e.viewport_first_line e.buffer.doc.len_lines)).foldl
      (fun c lx => match cacheGet c lx with
        | some _ => c
        | none => cacheInsert c lx (e.buffer.doc.line_text lx))
      (evictRange e.line_cache (min sl e.buffer.doc.len_lines)
        (min el (e.buffer.doc.len_lines - 1)))) l = _
  rw [populate_id]
  · exact hcache1 l
  · intro l2 h1 h2
    have hvis : min e.viewport_first_line e.buffer.doc.len_lines ≤ l2 ∧
        l2 < min (min e.viewport_first_line e.buffer.doc.len_lines + e.viewport_max_lines)
          e.buffer.doc.len_lines := by
      constructor
      · exact h1
      · omega
    have hnot : ¬ (sl ≤ l2 ∧ l2 ≤ min el (e.buffer.doc.len_lines - 1)) := by
      intro hco
      exact hdisj l2 hco.1 hco.2 hvis
    rw [hcache1 l2, if_neg hnot]
    exact hcached l2 hvis.1 hvis.2

/-- Five lines `"x"`, caret at the start of line 2 (char 4), `"y"` inserted:
the recorded impact is `{2, 3}`. -/
def c7_state : EngineState :=
  { buffer := ({ Buffer.new "x\nx\nx\nx\nx".toList with
      selections := ⟨⟨4, 4⟩, []⟩ } : Buffer).apply_text_to_selections "y".toList,
    line_cache := [(0, "x".toList), (1, "x".toList), (2, "x".toList),
      (3, "x".toList), (4, "x".toList)],
    cached_doc_version := 0, cached_line_count := 5,
    viewport_first_line := 0, viewport_max_lines := 1 }

theorem claim_C7_witness :
    cacheGet (viewModelPull c7_state).line_cache 2 = none ∧
    cacheGet (viewModelPull c7_state).line_cache 0 = cacheGet c7_state.line_cache 0 := by
  have hlen : c7_state.buffer.doc.len_lines = 5 := by decide
  have hvf : c7_state.viewport_first_line = 0 := rfl
  have hvm : c7_state.viewport_max_lines = 1 := rfl
  have h := claim_C7_cache_invalidation c7_state 2 3 (by decide) (by decide) (by decide)
    (by
      intro l h1 h2 hco
      rw [hlen, hvf, hvm] at hco
      omega)
    (by
      intro l h1 h2
      rw [hlen, hvf] at h1
      rw [hlen, hvf, hvm] at h2
      have hl0 : l = 0 := by omega
      subst hl0
      decide)
  constructor
  · rw [h 2]
    rw [hlen]
    decide
  · rw [h 0]
    rw [hlen]
    decide

/-! ### Claim C5: replace_all -/

/-- One in-place replacement of the span `[s, s+n)` by `r` — the text effect
of an in-range `replace_range`. -/
def applyChunk (t : List Char) (s n : Nat) (r : List Char) : List Char :=
  t.take s ++ (r ++ t.drop (s + n))

theorem replace_range_eval (d : Document) (s n : Nat) (r : List Char)
    (h : s + n ≤ d.text.length) :
    d.replace_range s (s + n) r
      = ⟨applyChunk d.text s n r, wrap64 (d.version + 1)⟩ := by
  have hx := replace_range_decomp_doc d.version (d.text.take s)
    ((d.text.drop s).take n) (d.text.drop (s + n)) r
  have hA : (d.text.take s).length = s := by rw [List.length_take]; omega
  have hM : ((d.text.drop s).take n).length = n := by
    rw [List.length_take, List.length_drop]; omega
  rw [hA, hM] at hx
  have hdoc : d = ⟨d.text.take s ++ (((d.text.drop s).take n) ++ d.text.drop (s + n)),
      d.version⟩ := by
    conv_lhs => rw [show d = ⟨d.text, d.version⟩ from rfl,
      text_decomp d.text s (s + n) (by omega) h]
    simp
  rw [← hdoc] at hx
  rw [hx]
  unfold applyChunk
  rfl

theorem applyChunk_length (t : List Char) (s n : Nat) (r : List Char)
    (hr : r.length = n) (hb : s + n ≤ t.length) :
    (applyChunk t s n r).length = t.length := by
  unfold applyChunk
  simp only [List.length_append, List.length_take, List.length_drop]
  omega

theorem applyChunk_getElem (t : List Char) (s n : Nat) (r : List Char)
    (hr : r.length = n) (hb : s + n ≤ t.length) (i : Nat) :
    (applyChunk t s n r)[i]? =
      if i < s then t[i]? else if i < s + n then r[i - s]? else t[i]? := by
  unfold applyChunk
  have hA : (t.take s).length = s := by rw [List.length_take]; omega
  by_cases h1 : i < s
  · rw [List.getElem?_append_left (by omega), List.getElem?_take, if_pos h1, if_pos h1]
  · rw [List.getElem?_append_right (by omega), hA, if_neg h1]
    by_cases h2 : i < s + n
    · rw [List.getElem?_append_left (by omega), if_pos h2]
    · rw [List.getElem?_append_right (by omega), List.getElem?_drop, hr, if_neg h2]
      congr 1
      omega

/-- Replacements of disjoint equal-length spans commute. -/
theorem applyChunk_comm (t : List Char) (s1 n1 : Nat) (r1 : List Char)
    (s2 n2 : Nat) (r2 : List Char)
    (h12 : s1 + n1 ≤ s2) (hb : s2 + n2 ≤ t.length)
    (hr1 : r1.length = n1) (hr2 : r2.length = n2) :
    applyChunk (applyChunk t s2 n2 r2) s1 n1 r1
      = applyChunk (applyChunk t s1 n1 r1) s2 n2 r2 := by
  have hl2 : (applyChunk t s2 n2 r2).length = t.length :=
    applyChunk_length t s2 n2 r2 hr2 hb
  have hl1 : (applyChunk t s1 n1 r1).length = t.length :=
    applyChunk_length t s1 n1 r1 hr1 (by omega)
  apply List.ext_getElem?
  intro i
  rw [applyChunk_getElem (applyChunk t s2 n2 r2) s1 n1 r1 hr1 (by omega),
    applyChunk_getElem (applyChunk t s1 n1 r1) s2 n2 r2 hr2 (by omega),
    applyChunk_getElem t s2 n2 r2 hr2 hb,
    applyChunk_getElem t s1 n1 r1 hr1 (by omega)]
  split_ifs <;> first | rfl | omega

/-- Replacing a span and then restoring its original content is the
identity. -/
theorem applyChunk_roundtrip (t : List Char) (s n : Nat) (r : List Char)
    (hr : r.length = n) (hb : s + n ≤ t.length) :
    applyChunk (applyChunk t s n r) s n ((t.drop s).take n) = t := by
  have hdel : ((t.drop s).take n).length = n := by
    rw [List.length_take, List.length_drop]; omega
  have hl : (applyChunk t s n r).length = t.length :=
    applyChunk_length t s n r hr hb
  apply List.ext_getElem?
  intro i
  rw [applyChunk_getElem _ _ _ _ hdel (by omega),
    applyChunk_getElem _ _ _ _ hr hb]
  by_cases h1 : i < s
  · rw [if_pos h1, if_pos h1]
  · rw [if_neg h1, if_neg h1]
    by_cases h2 : i < s + n
    · rw [if_pos h2, List.getElem?_take,
        if_pos (show i - s < n by omega), List.getElem?_drop]
      congr 1
      omega
    · rw [if_neg h2, if_neg h2]

/-- Text effect of applying an ascending edit list from the rightmost edit
down (the order produced by the descending sort). -/
def foldChunksFwd (es : List Edit) (t : List Char) : List Char :=
  es.foldr (fun e u => applyChunk u e.start_char e.deleted.length e.inserted) t

/-- Text effect of replaying the inverses in the same order. -/
def foldChunksInv (es : List Edit) (t : List Char) : List Char :=
  es.foldr (fun e u => applyChunk u e.start_char e.inserted.length e.deleted) t

theorem foldChunksFwd_length (es : List Edit) (t : List Char)
    (h : ∀ e ∈ es, e.inserted.length = e.deleted.length ∧
      e.start_char + e.deleted.length ≤ t.length) :
    (foldChunksFwd es t).length = t.length := by
  induction es with
  | nil => rfl
  | cons e rest ih =>
    have hrest := ih (fun x hx => h x (List.mem_cons_of_mem _ hx))
    have he := h e (List.mem_cons_self _ _)
    unfold foldChunksFwd at *
    rw [List.foldr_cons, applyChunk_length _ _ _ _ he.1 (by omega)]
    exact hrest

theorem foldChunksInv_length (es : List Edit) (t : List Char)
    (h : ∀ e ∈ es, e.inserted.length = e.deleted.length ∧
      e.start_char + e.deleted.length ≤ t.length) :
    (foldChunksInv es t).length = t.length := by
  induction es with
  | nil => rfl
  | cons e rest ih =>
    have hrest := ih (fun x hx => h x (List.mem_cons_of_mem _ hx))
    have he := h e (List.mem_cons_self _ _)
    unfold foldChunksInv at *
    rw [List.foldr_cons, applyChunk_length _ _ _ _ (he.1.symm ▸ rfl) (by omega)]
    exact hrest

theorem foldChunksInv_comm (es : List Edit) (t : List Char) (s n : Nat) (r : List Char)
    (hr : r.length = n)
    (hsep : ∀ e ∈ es, s + n ≤ e.start_char)
    (hP : ∀ e ∈ es, e.inserted.length = e.deleted.length ∧
      e.start_char + e.deleted.length ≤ t.length)
    (hb : s + n ≤ t.length) :
    foldChunksInv es (applyChunk t s n r) = applyChunk (foldChunksInv es t) s n r := by
  induction es with
  | nil => rfl
  | cons e rest ih =>
    have he := hP e (List.mem_cons_self _ _)
    have hPrest := fun x hx => hP x (List.mem_cons_of_mem _ hx)
    have hlen : (foldChunksInv rest t).length = t.length := foldChunksInv_length rest t hPrest
    unfold foldChunksInv at *
    rw [List.foldr_cons, List.foldr_cons]
    rw [ih (fun x hx => hsep x (List.mem_cons_of_mem _ hx)) hPrest]
    exact (applyChunk_comm (List.foldr _ t rest) s n r e.start_char
      e.inserted.length e.deleted
      (by have := hsep e (List.mem_cons_self _ _); omega)
      (by omega)
      hr (by omega)).symm

/-- Replaying the inverses of an ascending, pairwise-disjoint, equal-length
edit list (whose deletions record the original text) restores the original
text. -/
theorem foldChunks_roundtrip (es : List Edit) (t : List Char)
    (hpair : List.Pairwise (fun a b => a.start_char + a.deleted.length ≤ b.start_char) es)
    (hprops : ∀ e ∈ es, e.inserted.length = e.deleted.length ∧
      e.start_char + e.deleted.length ≤ t.length ∧
      e.deleted = (t.drop e.start_char).take e.deleted.length) :
    foldChunksInv es (foldChunksFwd es t) = t := by
  induction es with
  | nil => rfl
  | cons e rest ih =>
    obtain ⟨hpe, hprest⟩ := List.pairwise_cons.mp hpair
    have he := hprops e (List.mem_cons_self _ _)
    have hprest' := fun x hx => hprops x (List.mem_cons_of_mem _ hx)
    have hPrest : ∀ x ∈ rest, x.inserted.length = x.deleted.length ∧
        x.start_char + x.deleted.length ≤ t.length :=
      fun x hx => ⟨(hprest' x hx).1, (hprest' x hx).2.1⟩
    have hfwdlen : (foldChunksFwd rest t).length = t.length :=
      foldChunksFwd_length rest t hPrest
    show foldChunksInv (e :: rest) (foldChunksFwd (e :: rest) t) = t
    have hfwd : foldChunksFwd (e :: rest) t
        = applyChunk (foldChunksFwd rest t) e.start_char e.deleted.length e.inserted := rfl
    have hinvstep : ∀ X, foldChunksInv (e :: rest) X
        = applyChunk (foldChunksInv rest X) e.start_char e.inserted.length e.deleted :=
      fun X => rfl
    rw [hfwd, hinvstep]
    rw [foldChunksInv_comm rest (foldChunksFwd rest t) e.start_char e.deleted.length
      e.inserted he.1
      (fun x hx => hpe x hx)
      (by
        intro x hx
        refine ⟨(hPrest x hx).1, ?_⟩
        have := (hPrest x hx).2
        omega)
      (by omega)]
    rw [ih hprest hprest']
    have hrt := applyChunk_roundtrip t e.start_char e.deleted.length e.inserted he.1 he.2.1
    rw [← he.2.2] at hrt
    rw [he.1]
    exact hrt

theorem needleUsed_length (q : SearchQuery) :
    (if q.case_sensitive then q.needle else toLowerChars q.needle).length
      = q.needle.length := by
  cases q.case_sensitive <;> simp [toLowerChars]

/-- Every collected match starts at or after the (clamped) cursor, ends
exactly `needle.length` after its start, and fits inside the document. -/
theorem collectMatchesAux_bounds (b : Buffer) (q : SearchQuery) (cursor : Nat) :
    ∀ m ∈ collectMatchesAux b q cursor,
      min cursor b.doc.len_chars ≤ m.start_char ∧
      m.end_char = m.start_char + q.needle.length ∧
      m.end_char ≤ b.doc.len_chars := by
  induction cursor using collectMatchesAux.induct b q with
  | case1 cursor hnone =>
    intro m hm
    rw [collectMatchesAux, hnone] at hm
    simp at hm
  | case2 cursor m hsome hstop =>
    intro x hx
    rw [collectMatchesAux, hsome] at hx
    simp only [hstop, if_true, List.mem_singleton] at hx
    subst hx
    have h := find_next_forward_some hsome
    rw [needleUsed_length] at h
    exact ⟨h.2.2.2, h.2.2.1, h.2.1⟩
  | case3 cursor m hsome hstop ih =>
    intro x hx
    rw [collectMatchesAux, hsome] at hx
    simp only [hstop, if_false] at hx
    have h := find_next_forward_some hsome
    rw [needleUsed_length] at h
    rcases List.mem_cons.mp hx with hx | hx
    · subst hx
      exact ⟨h.2.2.2, h.2.2.1, h.2.1⟩
    · have := ih x hx
      refine ⟨?_, this.2.1, this.2.2⟩
      have h1 := this.1
      omega

theorem collectMatchesAux_pairwise (b : Buffer) (q : SearchQuery) (cursor : Nat) :
    List.Pairwise (fun a c => a.end_char ≤ c.start_char)
      (collectMatchesAux b q cursor) := by
  induction cursor using collectMatchesAux.induct b q with
  | case1 cursor hnone =>
    rw [collectMatchesAux, hnone]
    exact List.Pairwise.nil
  | case2 cursor m hsome hstop =>
    rw [collectMatchesAux, hsome]
    simp only [hstop, if_true]
    simp
  | case3 cursor m hsome hstop ih =>
    rw [collectMatchesAux, hsome]
    simp only [hstop, if_false]
    rw [List.pairwise_cons]
    refine ⟨?_, ih⟩
    intro x hx
    have hb := collectMatchesAux_bounds b q m.end_char x hx
    have h := find_next_forward_some hsome
    have h1 := hb.1
    omega

theorem insertDesc_all_lt (e : Edit) (l : List Edit)
    (h : ∀ x ∈ l, e.start_char < x.start_char) :
    insertDesc e l = l ++ [e] := by
  induction l with
  | nil => rfl
  | cons x xs ih =>
    rw [insertDesc, if_pos (h x (List.mem_cons_self _ _)),
      ih (fun y hy => h y (List.mem_cons_of_mem _ hy))]
    rfl

theorem sortEditsDesc_of_ascending (l : List Edit)
    (h : List.Pairwise (fun a b => a.start_char < b.start_char) l) :
    sortEditsDesc l = l.reverse := by
  induction l with
  | nil => rfl
  | cons e rest ih =>
    obtain ⟨he, hrest⟩ := List.pairwise_cons.mp h
    rw [sortEditsDesc, ih hrest,
      insertDesc_all_lt e rest.reverse (fun x hx => he x (List.mem_reverse.mp hx)),
      List.reverse_cons]

theorem sortEditsDesc_of_descending (l : List Edit)
    (h : List.Pairwise (fun a b => b.start_char ≤ a.start_char) l) :
    sortEditsDesc l = l := by
  induction l with
  | nil => rfl
  | cons e rest ih =>
    obtain ⟨he, hrest⟩ := List.pairwise_cons.mp h
    rw [sortEditsDesc, ih hrest]
    cases rest with
    | nil => rfl
    | cons x xs =>
      rw [insertDesc, if_neg (by
        have := he x (List.mem_cons_self _ _)
        omega)]

theorem applyEditsForward_text (d : Document) (es : List Edit)
    (h : ∀ e ∈ es, e.inserted.length = e.deleted.length ∧
      e.start_char + e.deleted.length ≤ d.text.length) :
    (Buffer.applyEditsForward d es).text
      = es.foldl (fun u e => applyChunk u e.start_char e.deleted.length e.inserted)
          d.text := by
  induction es generalizing d with
  | nil => rfl
  | cons e rest ih =>
    have he := h e (List.mem_cons_self _ _)
    unfold Buffer.applyEditsForward at *
    rw [List.foldl_cons, List.foldl_cons,
      replace_range_eval d e.start_char e.deleted.length e.inserted he.2]
    rw [ih ⟨applyChunk d.text e.start_char e.deleted.length e.inserted,
      wrap64 (d.version + 1)⟩]
    intro x hx
    have hx' := h x (List.mem_cons_of_mem _ hx)
    refine ⟨hx'.1, ?_⟩
    show x.start_char + x.deleted.length
      ≤ (applyChunk d.text e.start_char e.deleted.length e.inserted).length
    rw [applyChunk_length _ _ _ _ he.1 he.2]
    exact hx'.2

theorem applyEditsInverse_text (d : Document) (es : List Edit)
    (h : ∀ e ∈ es, e.inserted.length = e.deleted.length ∧
      e.start_char + e.deleted.length ≤ d.text.length) :
    (Buffer.applyEditsInverse d es).text
      = es.foldl (fun u e => applyChunk u e.start_char e.inserted.length e.deleted)
          d.text := by
  induction es generalizing d with
  | nil => rfl
  | cons e rest ih =>
    have he := h e (List.mem_cons_self _ _)
    unfold Buffer.applyEditsInverse at *
    rw [List.foldl_cons, List.foldl_cons,
      replace_range_eval d e.start_char e.inserted.length e.deleted (by omega)]
    rw [ih ⟨applyChunk d.text e.start_char e.inserted.length e.deleted,
      wrap64 (d.version + 1)⟩]
    intro x hx
    have hx' := h x (List.mem_cons_of_mem _ hx)
    refine ⟨hx'.1, ?_⟩
    show x.start_char + x.deleted.length
      ≤ (applyChunk d.text e.start_char e.inserted.length e.deleted).length
    rw [applyChunk_length _ _ _ _ (by omega) (by omega)]
    exact hx'.2

theorem replace_all_shape (b : Buffer) (q : SearchQuery) (r : List Char)
    (hnb : q.needle.isEmpty = false) (m0 : SearchMatch) (ms' : List SearchMatch)
    (hms : collectMatchesAux b q 0 = m0 :: ms') (mlast : SearchMatch)
    (hlast : (m0 :: ms').getLast? = some mlast) :
    replace_all b q r = ((m0 :: ms').length,
      b.apply_replace_ranges ((m0 :: ms').map fun m =>
          (⟨m.start_char, m.end_char, r⟩ : ReplaceRange)) TransactionKind.Replace
        ⟨⟨mlast.start_char + r.length, mlast.start_char + r.length⟩, []⟩) := by
  have hnot : ¬ (q.needle.isEmpty = true) := by simp [hnb]
  rw [replace_all, if_neg hnot]
  simp only [hms, List.isEmpty_cons, Bool.false_eq_true, if_false,
    List.getLast?_map, hlast, Option.map_some']

/-- Projection facts of `apply_replace_ranges` on a non-empty range list. -/
theorem apply_replace_ranges_proj (b : Buffer) (rr : ReplaceRange)
    (rest : List ReplaceRange) (kind : TransactionKind) (sel : SelectionSet) :
    (b.apply_replace_ranges (rr :: rest) kind sel).doc
        = Buffer.applyEditsForward b.doc
            (sortEditsDesc ((rr :: rest).map fun x =>
              (⟨x.start_char, b.doc.slice_to_string x.start_char x.end_char,
                x.inserted⟩ : Edit))) ∧
    (b.apply_replace_ranges (rr :: rest) kind sel).selections = sel ∧
    (b.apply_replace_ranges (rr :: rest) kind sel).history
        = ⟨⟨kind, sortEditsDesc ((rr :: rest).map fun x =>
            (⟨x.start_char, b.doc.slice_to_string x.start_char x.end_char,
              x.inserted⟩ : Edit))⟩ :: b.history.undo, []⟩ :=
  ⟨rfl, rfl, rfl⟩

/-- Central C5 fact: with at least one match and a replacement of the same
character count as the needle, a single undo after `replace_all` restores
the pre-replace text. -/
theorem replace_all_undo_restores (b : Buffer) (q : SearchQuery) (r : List Char)
    (hne : q.needle ≠ []) (hlen : r.length = q.needle.length)
    (m0 : SearchMatch) (ms' : List SearchMatch)
    (hms : collectMatchesAux b q 0 = m0 :: ms') :
    ((replace_all b q r).2.undo).2.doc.text = b.doc.text := by
  have hnb : q.needle.isEmpty = false := by
    cases hn : q.needle with
    | nil => exact absurd hn hne
    | cons x xs => rfl
  have hnq1 : 1 ≤ q.needle.length := by
    cases hn : q.needle with
    | nil => exact absurd hn hne
    | cons x xs => simp
  obtain ⟨mlast, hlast⟩ : ∃ m, (m0 :: ms').getLast? = some m :=
    ⟨(m0 :: ms').getLast (by simp), List.getLast?_eq_getLast _ (by simp)⟩
  rw [replace_all_shape b q r hnb m0 ms' hms mlast hlast]
  set RR : List ReplaceRange := (m0 :: ms').map fun m =>
    (⟨m.start_char, m.end_char, r⟩ : ReplaceRange) with hRR
  set E : List Edit := RR.map fun x =>
    (⟨x.start_char, b.doc.slice_to_string x.start_char x.end_char,
      x.inserted⟩ : Edit) with hEdef
  have hE2 : E = (m0 :: ms').map fun m =>
      (⟨m.start_char, b.doc.slice_to_string m.start_char m.end_char, r⟩ : Edit) := by
    rw [hEdef, hRR, List.map_map]
    rfl
  have hmb : ∀ m ∈ m0 :: ms', m.end_char = m.start_char + q.needle.length ∧
      m.end_char ≤ b.doc.len_chars := by
    intro m hm
    have := collectMatchesAux_bounds b q 0 m (hms ▸ hm)
    exact ⟨this.2.1, this.2.2⟩
  have hedit : ∀ m ∈ m0 :: ms',
      b.doc.slice_to_string m.start_char m.end_char
        = (b.doc.text.drop m.start_char).take q.needle.length ∧
      ((b.doc.text.drop m.start_char).take q.needle.length).length = q.needle.length := by
    intro m hm
    have hb := hmb m hm
    constructor
    · rw [slice_eval b.doc m.start_char m.end_char (by omega)
        (by rw [← Document.len_chars]; omega)]
      congr 1
      omega
    · rw [List.length_take, List.length_drop]
      rw [Document.len_chars] at hb
      omega
  have hprops : ∀ e ∈ E, e.inserted.length = e.deleted.length ∧
      e.start_char + e.deleted.length ≤ b.doc.text.length ∧
      e.deleted = (b.doc.text.drop e.start_char).take e.deleted.length := by
    intro e he
    rw [hE2, List.mem_map] at he
    obtain ⟨m, hm, rfl⟩ := he
    have h1 := hedit m hm
    have h2 := hmb m hm
    rw [Document.len_chars] at h2
    simp only
    rw [h1.1]
    refine ⟨by rw [h1.2, hlen], by rw [h1.2]; omega, by rw [h1.2]⟩
  have hmspair := collectMatchesAux_pairwise b q 0
  rw [hms] at hmspair
  have hpairE : E.Pairwise (fun a c => a.start_char + a.deleted.length ≤ c.start_char) := by
    rw [hE2, List.pairwise_map]
    refine hmspair.imp_of_mem ?_
    intro a c ha hc hrel
    have h1 := hedit a ha
    have h2 := hmb a ha
    simp only
    rw [h1.1, h1.2]
    omega
  have hstrict : E.Pairwise (fun a c => a.start_char < c.start_char) := by
    rw [hE2, List.pairwise_map]
    refine hmspair.imp_of_mem ?_
    intro a c ha hc hrel
    have h2 := hmb a ha
    simp only
    omega
  have hPE : ∀ e ∈ E, e.inserted.length = e.deleted.length ∧
      e.start_char + e.deleted.length ≤ b.doc.text.length :=
    fun e he => ⟨(hprops e he).1, (hprops e he).2.1⟩
  have hsort : sortEditsDesc E = E.reverse := sortEditsDesc_of_ascending E hstrict
  have hsort2 : sortEditsDesc E.reverse = E.reverse := by
    refine sortEditsDesc_of_descending _ ?_
    rw [List.pairwise_reverse]
    exact hstrict.imp (fun h => by
      show _ ≤ _
      omega)
  have hfwd_text : (Buffer.applyEditsForward b.doc E.reverse).text
      = foldChunksFwd E b.doc.text := by
    rw [applyEditsForward_text b.doc E.reverse
      (fun e he => hPE e (List.mem_reverse.mp he))]
    rw [List.foldl_reverse]
    rfl
  have hfwd_len : (foldChunksFwd E b.doc.text).length = b.doc.text.length :=
    foldChunksFwd_length E b.doc.text hPE
  show ((Buffer.apply_replace_ranges b RR TransactionKind.Replace
    ⟨⟨mlast.start_char + r.length, mlast.start_char + r.length⟩, []⟩).undo).2.doc.text
    = b.doc.text
  have hu : ((Buffer.apply_replace_ranges b RR TransactionKind.Replace
      ⟨⟨mlast.start_char + r.length, mlast.start_char + r.length⟩, []⟩).undo).2.doc
      = Buffer.applyEditsInverse (Buffer.applyEditsForward b.doc (sortEditsDesc E))
          (sortEditsDesc (sortEditsDesc E)) := rfl
  rw [hu, hsort, hsort2]
  rw [applyEditsInverse_text _ E.reverse (by
    intro e he
    have h := hPE e (List.mem_reverse.mp he)
    refine ⟨h.1, ?_⟩
    rw [hfwd_text, hfwd_len]
    exact h.2)]
  rw [hfwd_text, List.foldl_reverse]
  exact foldChunks_roundtrip E b.doc.text hpairE hprops

theorem c5_collect_eval :
    collectMatchesAux (Buffer.new "foo foo foo".toList) ⟨"foo".toList, true⟩ 0
      = [⟨0, 3⟩, ⟨4, 7⟩, ⟨8, 11⟩] := by
  rw [collectMatchesAux]
  show (⟨0, 3⟩ : SearchMatch) :: collectMatchesAux (Buffer.new "foo foo foo".toList)
      ⟨"foo".toList, true⟩ 3 = [⟨0, 3⟩, ⟨4, 7⟩, ⟨8, 11⟩]
  rw [collectMatchesAux]
  show (⟨0, 3⟩ : SearchMatch) :: (⟨4, 7⟩ : SearchMatch) :: collectMatchesAux
      (Buffer.new "foo foo foo".toList) ⟨"foo".toList, true⟩ 7
      = [⟨0, 3⟩, ⟨4, 7⟩, ⟨8, 11⟩]
  rw [collectMatchesAux]
  rfl

theorem c5_foo_eval :
    replace_all (Buffer.new "foo foo foo".toList) ⟨"foo".toList, true⟩ "bar".toList
      = (3, Buffer.apply_replace_ranges (Buffer.new "foo foo foo".toList)
          [⟨0, 3, "bar".toList⟩, ⟨4, 7, "bar".toList⟩, ⟨8, 11, "bar".toList⟩]
          TransactionKind.Replace ⟨⟨11, 11⟩, []⟩) := by
  rw [replace_all_shape (Buffer.new "foo foo foo".toList) ⟨"foo".toList, true⟩
    "bar".toList (by decide) ⟨0, 3⟩ [⟨4, 7⟩, ⟨8, 11⟩] c5_collect_eval ⟨8, 11⟩ rfl]
  rfl

theorem c5_counter_collect :
    collectMatchesAux (Buffer.new "aa".toList) ⟨"a".toList, true⟩ 0
      = [⟨0, 1⟩, ⟨1, 2⟩] := by
  rw [collectMatchesAux]
  show (⟨0, 1⟩ : SearchMatch) :: collectMatchesAux (Buffer.new "aa".toList)
      ⟨"a".toList, true⟩ 1 = [⟨0, 1⟩, ⟨1, 2⟩]
  rw [collectMatchesAux]
  rfl

theorem c5_counter_eval :
    replace_all (Buffer.new "aa".toList) ⟨"a".toList, true⟩ "bb".toList
      = (2, Buffer.apply_replace_ranges (Buffer.new "aa".toList)
          [⟨0, 1, "bb".toList⟩, ⟨1, 2, "bb".toList⟩]
          TransactionKind.Replace ⟨⟨3, 3⟩, []⟩) := by
  rw [replace_all_shape (Buffer.new "aa".toList) ⟨"a".toList, true⟩ "bb".toList
    (by decide) ⟨0, 1⟩ [⟨1, 2⟩] c5_counter_collect ⟨1, 2⟩ rfl]
  rfl

/-- C5 counterexample: on `"aa"`, `replace_all({needle:"a"}, "bb")` returns 2
and produces `"bbbb"`, but a single undo yields `"ab"`, not the pre-replace
`"aa"`: the descending inverse replay does not invert multi-edit
transactions whose replacement length differs from the needle length. -/
theorem claim_C5_counterexample :
    (replace_all (Buffer.new "aa".toList) ⟨"a".toList, true⟩ "bb".toList).1 = 2 ∧
    (replace_all (Buffer.new "aa".toList) ⟨"a".toList, true⟩ "bb".toList).2.doc.text
      = "bbbb".toList ∧
    (((replace_all (Buffer.new "aa".toList) ⟨"a".toList, true⟩ "bb".toList).2.undo).2).doc.text
      ≠ (Buffer.new "aa".toList).doc.text := by
  rw [c5_counter_eval]
  decide

/-- C5 (amended): for every non-empty needle, `replace_all` collects
pairwise-disjoint forward matches, returns their number, applies all
replacements as one transaction (one new undo entry; redo cleared), and
leaves a single caret at `last.start + |replacement|`; when the replacement
has the same character count as the needle (so positions are preserved —
then the caret is exactly the end of the last replaced match in the
resulting document), a single `Buffer::undo` restores the entire pre-replace
document. In particular, on `"foo foo foo"` with needle `"foo"`
(case-sensitive) and replacement `"bar"` it returns 3, the document becomes
`"bar bar bar"`, and one undo restores `"foo foo foo"`. -/
theorem claim_C5_replace_all (b : Buffer) (q : SearchQuery) (r : List Char)
    (hne : q.needle ≠ []) :
    List.Pairwise (fun a c => a.end_char ≤ c.start_char) (collectMatchesAux b q 0) ∧
    (replace_all b q r).1 = (collectMatchesAux b q 0).length ∧
    (∀ m0 ms', collectMatchesAux b q 0 = m0 :: ms' →
      (replace_all b q r).2.history.undo.length = b.history.undo.length + 1 ∧
      (replace_all b q r).2.history.redo = [] ∧
      (∀ mlast, (m0 :: ms').getLast? = some mlast →
        (replace_all b q r).2.selections
          = ⟨⟨mlast.start_char + r.length, mlast.start_char + r.length⟩, []⟩) ∧
      (r.length = q.needle.length →
        ((replace_all b q r).2.undo).2.doc.text = b.doc.text)) ∧
    (replace_all (Buffer.new "foo foo foo".toList) ⟨"foo".toList, true⟩ "bar".toList).1
      = 3 ∧
    (replace_all (Buffer.new "foo foo foo".toList)
      ⟨"foo".toList, true⟩ "bar".toList).2.doc.text = "bar bar bar".toList ∧
    (((replace_all (Buffer.new "foo foo foo".toList)
      ⟨"foo".toList, true⟩ "bar".toList).2.undo).2).doc.text = "foo foo foo".toList := by
  have hnb : q.needle.isEmpty = false := by
    cases hn : q.needle with
    | nil => exact absurd hn hne
    | cons x xs => rfl
  refine ⟨collectMatchesAux_pairwise b q 0, ?_, ?_,
    by simp only [c5_foo_eval], by simp only [c5_foo_eval]; decide,
    by simp only [c5_foo_eval]; decide⟩
  · cases hms : collectMatchesAux b q 0 with
    | nil =>
      have hev : replace_all b q r = (0, b) := by
        rw [replace_all, if_neg (by simp [hnb])]
        simp [hms]
      simp [hev]
    | cons m0 ms' =>
      obtain ⟨mlast, hlast⟩ : ∃ m, (m0 :: ms').getLast? = some m :=
        ⟨_, List.getLast?_eq_getLast _ (by simp)⟩
      rw [replace_all_shape b q r hnb m0 ms' hms mlast hlast]
  · intro m0 ms' hms
    obtain ⟨mlast, hlast⟩ : ∃ m, (m0 :: ms').getLast? = some m :=
      ⟨_, List.getLast?_eq_getLast _ (by simp)⟩
    have hsh := replace_all_shape b q r hnb m0 ms' hms mlast hlast
    refine ⟨?_, ?_, ?_, ?_⟩
    · rw [hsh]
      rfl
    · rw [hsh]
      rfl
    · intro mlast' hlast'
      have heq : mlast' = mlast := by
        rw [hlast] at hlast'
        exact (Option.some.inj hlast').symm
      subst heq
      rw [hsh]
      rfl
    · intro hlenr
      exact replace_all_undo_restores b q r hne hlenr m0 ms' hms

theorem claim_C5_witness :
    (replace_all (Buffer.new "foo foo foo".toList) ⟨"foo".toList, true⟩ "bar".toList).1
      = (collectMatchesAux (Buffer.new "foo foo foo".toList) ⟨"foo".toList, true⟩ 0).length ∧
    (((replace_all (Buffer.new "foo foo foo".toList)
      ⟨"foo".toList, true⟩ "bar".toList).2.undo).2).doc.text
      = (Buffer.new "foo foo foo".toList).doc.text := by
  have h := claim_C5_replace_all (Buffer.new "foo foo foo".toList) ⟨"foo".toList, true⟩
    "bar".toList (by decide)
  refine ⟨h.2.1, ?_⟩
  have h3 := h.2.2.1 ⟨0, 3⟩ [⟨4, 7⟩, ⟨8, 11⟩] c5_collect_eval
  exact h3.2.2.2 (by decide)

end TextEditor
